import Mathlib

set_option maxHeartbeats 1000000

namespace DingoSerial

/-- Modelled from the spec: the external byte-cursor collaborator (spec section 6),
whose implementation is not part of the decoder source. It is an endian-aware
read position over an immutable byte sequence: a forward position for head reads
and a count of bytes consumed from the tail for reverse reads. Out-of-range
bytes read as 0 (the shallow embedding is total; the spec treats overruns as a
hard defect of the collaborator, outside this core). -/
structure Buf where
  data : List Nat
  pos : Nat
  tail : Nat
  le : Bool
  deriving DecidableEq

/-- Modelled from the spec: construct a cursor over a byte sequence with an
endianness flag, positioned at the head with nothing consumed from the tail. -/
def Buf.init (data : List Nat) (le : Bool) : Buf := ⟨data, 0, 0, le⟩

/-- Modelled from the spec: assemble a machine integer from bytes, little-endian
when the flag is true (first byte least significant), big-endian otherwise. -/
def assembleNat (le : Bool) (bytes : List Nat) : Nat :=
  if le then bytes.foldr (fun x acc => x % 256 + 256 * acc) 0
  else bytes.foldl (fun acc x => 256 * acc + x % 256) 0

/-- Modelled from the spec: forward skip of n bytes. -/
def Buf.skip (b : Buf) (n : Nat) : Buf := { b with pos := b.pos + n }

/-- Modelled from the spec: forward read of a w-byte integer, advancing the
forward position by w. -/
def Buf.readNat (b : Buf) (w : Nat) : Nat × Buf :=
  (assembleNat b.le ((List.range w).map (fun i => b.data.getD (b.pos + i) 0)),
   { b with pos := b.pos + w })

/-- Modelled from the spec: forward read of an 8-byte integer (ReadLong). -/
def Buf.readLong (b : Buf) : Nat × Buf := Buf.readNat b 8

/-- Modelled from the spec: forward read of a 4-byte integer (ReadInt). -/
def Buf.readInt (b : Buf) : Nat × Buf := Buf.readNat b 4

/-- Modelled from the spec: peek the next unconsumed byte at the tail without
consuming it (ReversePeek). -/
def Buf.reversePeek (b : Buf) : Nat := b.data.getD (b.data.length - 1 - b.tail) 0

/-- Modelled from the spec: read one byte from the tail, consuming it
(ReverseRead). -/
def Buf.reverseRead (b : Buf) : Nat × Buf :=
  (Buf.reversePeek b, { b with tail := b.tail + 1 })

/-- Modelled from the spec: consume n further bytes from the tail (ReverseSkip). -/
def Buf.reverseSkip (b : Buf) (n : Nat) : Buf := { b with tail := b.tail + n }

/-- Modelled from the spec: end-of-data predicate for forward reads (IsEnd). -/
def Buf.isEnd (b : Buf) : Bool := decide (b.data.length ≤ b.pos)

/-- One column schema slot as seen by the decoder: physical type ordinal
(one of 12, used as the dispatch-table index), key/value portion flag, and the
declared output slot index. -/
structure ColumnSchema where
  type : Fin 12
  is_key : Bool
  index : Nat
  deriving DecidableEq

instance : Inhabited ColumnSchema := ⟨⟨⟨0, by omega⟩, false, 0⟩⟩

/-- One output record slot: never written (default-constructed), the explicit
absent marker (optional holding nullopt), or a decoded value. -/
inductive Cell (V : Type) where
  | unset : Cell V
  | absent : Cell V
  | value : V → Cell V
  deriving DecidableEq

/-- The external per-type schema collaborators (DingoSchema), abstracted: each
provides typed decode from the key or value portion (returning the decoded
value and the advanced cursor) and cursor-only skips. The 12 template
instantiations of the source share this shape; the value type V is a parameter. -/
structure SchemaOps (V : Type) where
  decodeKeyFn : ColumnSchema → Buf → V × Buf
  decodeValueFn : ColumnSchema → Buf → V × Buf
  skipKeyFn : ColumnSchema → Buf → Buf
  skipValueFn : ColumnSchema → Buf → Buf

variable {V : Type}

/-- Source record_decoder.cc lines 32-56: the per-type decode-or-skip routine.
If skip: advance the key cursor (key column), or the value cursor when it is
not at end. Otherwise: a key column always decodes from the key cursor into the
target slot; a value column writes the absent marker if the value cursor is at
end-of-data, else decodes from the value cursor. vector::at assignment is
modelled as List.set (in-range in every use the source makes of it). -/
def CastAndDecodeOrSkip (ops : SchemaOps V) (schema : ColumnSchema)
    (key_buf value_buf : Buf) (record : List (Cell V)) (record_index : Nat)
    (skip : Bool) : List (Cell V) × Buf × Buf :=
  if skip then
    if schema.is_key then (record, ops.skipKeyFn schema key_buf, value_buf)
    else if !(Buf.isEnd value_buf) then
      (record, key_buf, ops.skipValueFn schema value_buf)
    else (record, key_buf, value_buf)
  else
    if schema.is_key then
      (record.set record_index (Cell.value (ops.decodeKeyFn schema key_buf).1),
       (ops.decodeKeyFn schema key_buf).2, value_buf)
    else if Buf.isEnd value_buf then
      (record.set record_index Cell.absent, key_buf, value_buf)
    else
      (record.set record_index (Cell.value (ops.decodeValueFn schema value_buf).1),
       key_buf, (ops.decodeValueFn schema value_buf).2)

/-- Source lines 58-71: the fixed 12-entry dispatch table, indexed by the
physical type ordinal. All entries are instantiations of the one template
routine; with the per-type behavior abstracted into SchemaOps, every entry is
the same routine. -/
def cast_and_decode_or_skip_func_ptrs (_t : Fin 12) :
    SchemaOps V → ColumnSchema → Buf → Buf → List (Cell V) → Nat → Bool →
    List (Cell V) × Buf × Buf :=
  fun ops => CastAndDecodeOrSkip ops

/-- Source lines 119-124: dispatch through the table by the schema type ordinal. -/
def DecodeOrSkip (ops : SchemaOps V) (schema : ColumnSchema)
    (key_buf value_buf : Buf) (record : List (Cell V)) (record_index : Nat)
    (skip : Bool) : List (Cell V) × Buf × Buf :=
  cast_and_decode_or_skip_func_ptrs schema.type ops schema key_buf value_buf
    record record_index skip

/-- The decoder instance (source record_decoder.cc lines 73-97 plus the fields
declared in the header, which is not part of the given source): schema version,
the bound schema list (a slot may be null for a dropped column), the table
common id, the codec version, and the endianness flag. Immutable after
construction. -/
structure RecordDecoderV1 where
  schema_version : Nat
  schemas : List (Option ColumnSchema)
  common_id : Nat
  codec_version : Nat
  le : Bool
  deriving DecidableEq

/-- Source lines 99-103 (source name: CheckPrefix): skip 1 namespace byte at
the head of the key, read an 8-byte long and compare to the decoder's common id. -/
def CheckCommonId (d : RecordDecoderV1) (buf : Buf) : Bool × Buf :=
  let b := Buf.skip buf 1
  let r := Buf.readLong b
  (r.1 == d.common_id, r.2)

/-- Source lines 105-111: read one byte from the tail of the key; if it is at
most the decoder's codec version, consume 3 further tail bytes and accept,
otherwise reject. -/
def CheckReverseTag (d : RecordDecoderV1) (buf : Buf) : Bool × Buf :=
  let r := Buf.reverseRead buf
  if r.1 ≤ d.codec_version then (true, Buf.reverseSkip r.2 3)
  else (false, r.2)

/-- Source lines 113-115: read the leading 4-byte integer of the value and
accept when it is at most the decoder's schema version. -/
def CheckSchemaVersion (d : RecordDecoderV1) (buf : Buf) : Bool × Buf :=
  let r := Buf.readInt buf
  (decide (r.1 ≤ d.schema_version), r.2)

/-- Source line 117: standalone peek of the trailing codec-version byte. -/
def GetCodecVersion (buf : Buf) : Nat := Buf.reversePeek buf

/-- Source lines 146-150: the full-decode pass over the schema list. Null
slots are skipped entirely; each present slot is dispatched with skip=false at
its declared output index, threading both cursors. -/
def fullLoop (ops : SchemaOps V) :
    List (Option ColumnSchema) → List (Cell V) → Buf → Buf →
    List (Cell V) × Buf × Buf
  | [], record, key_buf, value_buf => (record, key_buf, value_buf)
  | none :: rest, record, key_buf, value_buf =>
    fullLoop ops rest record key_buf value_buf
  | some s :: rest, record, key_buf, value_buf =>
    let t := DecodeOrSkip ops s key_buf value_buf record s.index false
    fullLoop ops rest t.1 t.2.1 t.2.2

/-- The caller-supplied output vector resized to n entries: existing entries
up to n are kept, added entries are default-constructed (unset). -/
def resizeRecord (record : List (Cell V)) (n : Nat) : List (Cell V) :=
  record.take n ++ List.replicate (n - record.length) Cell.unset

/-- Source lines 126-153: full decode. Run the three header checks in order,
returning -1 (with the caller's record untouched) at the first failure; then
resize the record to the schema list length and run the full-decode pass,
returning 0. -/
def Decode (d : RecordDecoderV1) (ops : SchemaOps V) (key value : List Nat)
    (record : List (Cell V)) : Int × List (Cell V) :=
  let key_buf := Buf.init key d.le
  let value_buf := Buf.init value d.le
  let c1 := CheckCommonId d key_buf
  if !c1.1 then (-1, record)
  else
    let c2 := CheckReverseTag d c1.2
    if !c2.1 then (-1, record)
    else
      let c3 := CheckSchemaVersion d value_buf
      if !c3.1 then (-1, record)
      else
        let r0 := resizeRecord record d.schemas.length
        let t := fullLoop ops d.schemas r0 c2.2 c3.2
        (0, t.1)

/-- Source lines 170-176: the key-only pass. A natural-enumeration counter runs
over every schema slot (present or not); a present slot whose is_key flag is
true is dispatched with skip=false at that enumeration position, with the key
cursor passed for both cursor arguments (the guard makes the value cursor
argument unused). -/
def keyLoop (ops : SchemaOps V) :
    List (Option ColumnSchema) → Nat → List (Cell V) → Buf →
    List (Cell V) × Buf
  | [], _, record, key_buf => (record, key_buf)
  | none :: rest, index, record, key_buf =>
    keyLoop ops rest (index + 1) record key_buf
  | some s :: rest, index, record, key_buf =>
    if s.is_key then
      let t := DecodeOrSkip ops s key_buf key_buf record index false
      keyLoop ops rest (index + 1) t.1 t.2.1
    else keyLoop ops rest (index + 1) record key_buf

/-- Source lines 155-179: key-only decode. Runs only the common-id and
reverse-tag checks (the schema-version check needs the value bytes, which are
not supplied), resizes the record to the schema list length and runs the
key-only pass. -/
def DecodeKey (d : RecordDecoderV1) (ops : SchemaOps V) (key : List Nat)
    (record : List (Cell V)) : Int × List (Cell V) :=
  let key_buf := Buf.init key d.le
  let c1 := CheckCommonId d key_buf
  if !c1.1 then (-1, record)
  else
    let c2 := CheckReverseTag d c1.2
    if !c2.1 then (-1, record)
    else
      let r0 := resizeRecord record d.schemas.length
      let t := keyLoop ops d.schemas 0 r0 c2.2
      (0, t.1)

/-- The result of one IsSkipOnly call: the skip decision and the updated
request counter, position counter and target record index. -/
structure SkipRes where
  skip : Bool
  n : Nat
  m : Nat
  record_index : Nat
  deriving DecidableEq

/-- Source lines 186-200: decide skip versus decode for one present schema
slot. Reads the sort-plan entry at the request counter n; the position counter
m is post-incremented in both branches; on a match the request counter advances
and the target record index is set to the entry's output slot, otherwise the
slot is skip-only and the target record index keeps its previous value. -/
def IsSkipOnly (plan : List (Int × Nat)) (n m record_index : Nat) : SkipRes :=
  let first := (plan.getD n ((0 : Int), (0 : Nat))).1
  let second := (plan.getD n ((0 : Int), (0 : Nat))).2
  if first == (m : Int) then ⟨false, n + 1, m + 1, second⟩
  else ⟨true, n, m + 1, record_index⟩

/-- The loop state of projected decode: output record, the two cursors, the
request counter n, the present-slot position counter m, and the current target
record index. -/
structure PState (V : Type) where
  record : List (Cell V)
  key_buf : Buf
  value_buf : Buf
  n : Nat
  m : Nat
  record_index : Nat
  deriving DecidableEq

/-- One present-slot iteration of the projected-decode pass (source lines
239-240): consult IsSkipOnly, dispatch decode-or-skip accordingly, and carry
the updated counters. -/
def projStep (ops : SchemaOps V) (plan : List (Int × Nat)) (s : ColumnSchema)
    (st : PState V) : PState V :=
  let q := IsSkipOnly plan st.n st.m st.record_index
  let t := DecodeOrSkip ops s st.key_buf st.value_buf st.record q.record_index q.skip
  ⟨t.1, t.2.1, t.2.2, q.n, q.m, q.record_index⟩

/-- Source lines 233-243: the projected-decode pass. Before each slot, if the
request counter has reached the projection length the pass returns early with
the state untouched; a null slot is passed over without touching any counter;
a present slot takes one projStep. -/
def projLoop (ops : SchemaOps V) (k : Nat) (plan : List (Int × Nat)) :
    List (Option ColumnSchema) → PState V → PState V
  | [], st => st
  | bs :: rest, st =>
    if k = st.n then st
    else
      match bs with
      | none => projLoop ops k plan rest st
      | some s => projLoop ops k plan rest (projStep ops plan s st)

/-- Source lines 219-222: pair each requested schema-list position with its
position in the caller's projection (its output slot). -/
def mkPlanPairs : List Int → Nat → List (Int × Nat)
  | [], _ => []
  | c :: cs, i => (c, i) :: mkPlanPairs cs (i + 1)

/-- Lexicographic order on sort-plan pairs, as std::sort uses on std::pair. -/
def pairLe (a b : Int × Nat) : Prop :=
  a.1 < b.1 ∨ (a.1 = b.1 ∧ a.2 ≤ b.2)

instance : DecidableRel pairLe := fun a b => by
  unfold pairLe; infer_instance

instance : IsTotal (Int × Nat) pairLe := by
  constructor
  intro a b
  obtain ⟨a1, a2⟩ := a
  obtain ⟨b1, b2⟩ := b
  unfold pairLe
  simp only []
  omega

instance : IsTrans (Int × Nat) pairLe := by
  constructor
  intro a b c hab hbc
  obtain ⟨a1, a2⟩ := a
  obtain ⟨b1, b2⟩ := b
  obtain ⟨c1, c2⟩ := c
  unfold pairLe at hab hbc ⊢
  omega

/-- Source lines 216-225: the sort plan of projected decode, the position/slot
pairs sorted ascending (std::sort under the total lexicographic pair order has
this list as its unique sorted permutation). -/
def mkPlan (column_indexes : List Int) : List (Int × Nat) :=
  List.insertionSort pairLe (mkPlanPairs column_indexes 0)

/-- Source lines 202-244: projected decode. Run the three header checks (the
source short-circuits a disjunction; sequentially equivalent), returning -1
with the record untouched on failure; resize the record to the projection
length, build the sorted plan and run the projected pass from zeroed counters;
the status is 0 whether the pass exhausts the schema list or returns early. -/
def DecodeWithColumns (d : RecordDecoderV1) (ops : SchemaOps V)
    (key value : List Nat) (column_indexes : List Int)
    (record : List (Cell V)) : Int × List (Cell V) :=
  let key_buf := Buf.init key d.le
  let value_buf := Buf.init value d.le
  let c1 := CheckCommonId d key_buf
  if !c1.1 then (-1, record)
  else
    let c2 := CheckReverseTag d c1.2
    if !c2.1 then (-1, record)
    else
      let c3 := CheckSchemaVersion d value_buf
      if !c3.1 then (-1, record)
      else
        let r0 := resizeRecord record column_indexes.length
        let plan := mkPlan column_indexes
        let final := projLoop ops column_indexes.length plan d.schemas
          ⟨r0, c2.2, c3.2, 0, 0, 0⟩
        (0, final.record)

/-- The claim-side reading of the first header check, straight from the raw
key bytes: the 8-byte identifier found after the 1 skipped namespace byte
equals the decoder's table identifier. -/
def CommonIdOkP (d : RecordDecoderV1) (key : List Nat) : Prop :=
  assembleNat d.le ((List.range 8).map (fun i => key.getD (1 + i) 0)) = d.common_id

/-- The claim-side reading of the second header check: the byte at the tail of
the key bytes is at most the decoder's codec version. -/
def CodecTagOkP (d : RecordDecoderV1) (key : List Nat) : Prop :=
  key.getD (key.length - 1) 0 ≤ d.codec_version

/-- The claim-side reading of the third header check: the leading 4-byte
integer of the value bytes is at most the decoder's schema version. -/
def SchemaVersionOkP (d : RecordDecoderV1) (value : List Nat) : Prop :=
  assembleNat d.le ((List.range 4).map (fun i => value.getD i 0)) ≤ d.schema_version

instance (d : RecordDecoderV1) (key : List Nat) : Decidable (CommonIdOkP d key) := by
  unfold CommonIdOkP
  infer_instance

instance (d : RecordDecoderV1) (key : List Nat) : Decidable (CodecTagOkP d key) := by
  unfold CodecTagOkP
  infer_instance

instance (d : RecordDecoderV1) (value : List Nat) : Decidable (SchemaVersionOkP d value) := by
  unfold SchemaVersionOkP
  infer_instance

/-- The well-behavedness of the external per-type collaborators assumed by the
skip-versus-decode optimization: skipping a column advances the cursor exactly
as decoding it would. -/
def SkipConsistent (ops : SchemaOps V) : Prop :=
  (∀ s b, ops.skipKeyFn s b = (ops.decodeKeyFn s b).2) ∧
  (∀ s b, ops.skipValueFn s b = (ops.decodeValueFn s b).2)

/-- The cursor effect of one skip=false dispatch of a present column: a key
column advances the key cursor by its decode; a value column advances the value
cursor by its decode unless the value cursor is at end-of-data. -/
def cursorAdv (ops : SchemaOps V) (s : ColumnSchema) (key_buf value_buf : Buf) :
    Buf × Buf :=
  if s.is_key then ((ops.decodeKeyFn s key_buf).2, value_buf)
  else if Buf.isEnd value_buf then (key_buf, value_buf)
  else (key_buf, (ops.decodeValueFn s value_buf).2)

/-- The cell one skip=false dispatch writes for a present column at the given
cursor states. -/
def cellValue (ops : SchemaOps V) (s : ColumnSchema) (key_buf value_buf : Buf) :
    Cell V :=
  if s.is_key then Cell.value (ops.decodeKeyFn s key_buf).1
  else if Buf.isEnd value_buf then Cell.absent
  else Cell.value (ops.decodeValueFn s value_buf).1

/-- Both cursors threaded across a schema-list segment, null slots passed over. -/
def advanceCursors (ops : SchemaOps V) :
    List (Option ColumnSchema) → Buf → Buf → Buf × Buf
  | [], key_buf, value_buf => (key_buf, value_buf)
  | none :: rest, key_buf, value_buf => advanceCursors ops rest key_buf value_buf
  | some s :: rest, key_buf, value_buf =>
    advanceCursors ops rest (cursorAdv ops s key_buf value_buf).1
      (cursorAdv ops s key_buf value_buf).2

/-- The (output index, cell) write sequence the full-decode pass performs,
with the cursor states threaded. -/
def fullWrites (ops : SchemaOps V) :
    List (Option ColumnSchema) → Buf → Buf → List (Nat × Cell V)
  | [], _, _ => []
  | none :: rest, key_buf, value_buf => fullWrites ops rest key_buf value_buf
  | some s :: rest, key_buf, value_buf =>
    (s.index, cellValue ops s key_buf value_buf) ::
      fullWrites ops rest (cursorAdv ops s key_buf value_buf).1
        (cursorAdv ops s key_buf value_buf).2

/-- Apply a write sequence to a record, in order. -/
def applyWrites : List (Nat × Cell V) → List (Cell V) → List (Cell V)
  | [], record => record
  | (i, v) :: ws, record => applyWrites ws (record.set i v)

/-- The value of the last write a write sequence makes to a slot, if any. -/
def lastWrite : List (Nat × Cell V) → Nat → Option (Cell V)
  | [], _ => none
  | (i, v) :: ws, j =>
    match lastWrite ws j with
    | some w => some w
    | none => if i = j then some v else none

/-- The key cursor threaded across a schema-list segment the way the key-only
pass moves it: only present key slots advance it, by their key decode. -/
def keyCursorAfter (ops : SchemaOps V) :
    List (Option ColumnSchema) → Buf → Buf
  | [], key_buf => key_buf
  | none :: rest, key_buf => keyCursorAfter ops rest key_buf
  | some s :: rest, key_buf =>
    if s.is_key then keyCursorAfter ops rest (ops.decodeKeyFn s key_buf).2
    else keyCursorAfter ops rest key_buf

/-- The output slots the projected pass actually writes (the requests its
matching discipline satisfies), mirrored from the counters of IsSkipOnly and
the early-return and null-slot handling of the pass. -/
def projMatched (k : Nat) (plan : List (Int × Nat)) :
    List (Option ColumnSchema) → Nat → Nat → List Nat
  | [], _, _ => []
  | none :: rest, n, m =>
    if k = n then [] else projMatched k plan rest n m
  | some _ :: rest, n, m =>
    if k = n then []
    else
      if (plan.getD n ((0 : Int), (0 : Nat))).1 == (m : Int) then
        (plan.getD n ((0 : Int), (0 : Nat))).2 :: projMatched k plan rest (n + 1) (m + 1)
      else projMatched k plan rest n (m + 1)

/-- A concrete instantiation of the external per-type collaborators, used to
evaluate the development on closed inputs: values are single bytes, every
column occupies one byte in its portion. -/
def natOps : SchemaOps Nat :=
  ⟨fun _ b => (b.data.getD b.pos 0, { b with pos := b.pos + 1 }),
   fun _ b => (b.data.getD b.pos 0, { b with pos := b.pos + 1 }),
   fun _ b => { b with pos := b.pos + 1 },
   fun _ b => { b with pos := b.pos + 1 }⟩

/-- A concrete value-portion column used to evaluate the development. -/
def sW0 : ColumnSchema := ⟨⟨0, by omega⟩, false, 0⟩

/-- A concrete key-portion column used to evaluate the development. -/
def sW1 : ColumnSchema := ⟨⟨1, by omega⟩, true, 1⟩

/-- A concrete decoder (schema version 1, one value and one key column, table
id 42, codec version 1, little-endian) used to evaluate the development. -/
def dW : RecordDecoderV1 := ⟨1, [some sW0, some sW1], 42, 1, true⟩

/-- Concrete key bytes for dW: namespace 0, id 42, one key-column byte 7,
3 padding bytes, trailing codec tag 1. -/
def keyW : List Nat := [0, 42, 0, 0, 0, 0, 0, 0, 0, 7, 0, 0, 0, 1]

/-- Key bytes whose embedded table id (43) differs from dW's. -/
def keyBadW : List Nat := [0, 43, 0, 0, 0, 0, 0, 0, 0, 7, 0, 0, 0, 1]

/-- Key bytes whose trailing codec tag (9) exceeds dW's codec version. -/
def keyBadTagW : List Nat := [0, 42, 0, 0, 0, 0, 0, 0, 0, 7, 0, 0, 0, 9]

/-- Concrete value bytes for dW: schema version 1, one value-column byte 9. -/
def valW : List Nat := [1, 0, 0, 0, 9]

/-- Value bytes whose leading schema version (2) exceeds dW's. -/
def valBadW : List Nat := [2, 0, 0, 0, 9]

-- ### Dispatch equations

/-- A skip=false dispatch writes the cell cellValue describes at the target
slot and advances the cursors by cursorAdv. -/
theorem castDecode_false (ops : SchemaOps V) (s : ColumnSchema) (kb vb : Buf)
    (r : List (Cell V)) (i : Nat) :
    CastAndDecodeOrSkip ops s kb vb r i false =
      (r.set i (cellValue ops s kb vb), cursorAdv ops s kb vb) := by
  cases hk : s.is_key <;> cases he : Buf.isEnd vb <;>
    simp [CastAndDecodeOrSkip, cellValue, cursorAdv, hk, he]

/-- A skip=true dispatch never touches the record. -/
theorem castDecode_skip_record (ops : SchemaOps V) (s : ColumnSchema)
    (kb vb : Buf) (r : List (Cell V)) (i : Nat) :
    (CastAndDecodeOrSkip ops s kb vb r i true).1 = r := by
  cases hk : s.is_key <;> cases he : Buf.isEnd vb <;>
    simp [CastAndDecodeOrSkip, hk, he]

/-- With skip-consistent collaborators, a skip=true dispatch advances the
cursors exactly as the skip=false dispatch would. -/
theorem castDecode_skip (ops : SchemaOps V) (hops : SkipConsistent ops)
    (s : ColumnSchema) (kb vb : Buf) (r : List (Cell V)) (i : Nat) :
    CastAndDecodeOrSkip ops s kb vb r i true = (r, cursorAdv ops s kb vb) := by
  obtain ⟨hkk, hvv⟩ := hops
  cases hk : s.is_key <;> cases he : Buf.isEnd vb <;>
    simp [CastAndDecodeOrSkip, cursorAdv, hk, he, hkk, hvv]

/-- Dispatch through the table is the one routine. -/
theorem decodeOrSkip_eq (ops : SchemaOps V) (s : ColumnSchema) (kb vb : Buf)
    (r : List (Cell V)) (i : Nat) (b : Bool) :
    DecodeOrSkip ops s kb vb r i b = CastAndDecodeOrSkip ops s kb vb r i b := rfl

-- ### Record resize

/-- Resizing yields the requested length. -/
theorem resizeRecord_length (r : List (Cell V)) (n : Nat) :
    (resizeRecord r n).length = n := by
  simp [resizeRecord]
  omega

/-- Resizing to the current length is the identity. -/
theorem resizeRecord_self (r : List (Cell V)) (n : Nat) (h : r.length = n) :
    resizeRecord r n = r := by
  subst h
  simp [resizeRecord]

/-- Resizing the empty record gives unset cells everywhere. -/
theorem resizeRecord_nil_getElem (n j : Nat) (h : j < n) :
    (resizeRecord ([] : List (Cell V)) n)[j]? = some Cell.unset := by
  simp [resizeRecord, h]

-- ### Header check bridges

/-- The first header check on a fresh key cursor, in claim-side terms. -/
theorem checkCommonId_eq (d : RecordDecoderV1) (key : List Nat) :
    CheckCommonId d (Buf.init key d.le) =
      (decide (CommonIdOkP d key), ⟨key, 9, 0, d.le⟩) := by
  have hbd : ∀ (a b : Nat), (a == b) = decide (a = b) := fun a b => by
    by_cases h : a = b <;> simp [h]
  simp [CheckCommonId, Buf.init, Buf.skip, Buf.readLong, Buf.readNat,
    CommonIdOkP, hbd]

/-- The second header check accepts exactly the claim-side tail condition and
then consumes 4 tail bytes in all. -/
theorem checkReverseTag_eq_true (d : RecordDecoderV1) (key : List Nat)
    (h : CodecTagOkP d key) :
    CheckReverseTag d ⟨key, 9, 0, d.le⟩ = (true, ⟨key, 9, 4, d.le⟩) := by
  simp [CheckReverseTag, Buf.reverseRead, Buf.reversePeek, Buf.reverseSkip,
    CodecTagOkP] at *
  simp [h]

/-- The second header check rejects exactly the claim-side tail condition,
consuming only the 1 read tail byte. -/
theorem checkReverseTag_eq_false (d : RecordDecoderV1) (key : List Nat)
    (h : ¬ CodecTagOkP d key) :
    CheckReverseTag d ⟨key, 9, 0, d.le⟩ = (false, ⟨key, 9, 1, d.le⟩) := by
  simp [CheckReverseTag, Buf.reverseRead, Buf.reversePeek, Buf.reverseSkip,
    CodecTagOkP] at *
  simp [h]

/-- The third header check on a fresh value cursor, in claim-side terms. -/
theorem checkSchemaVersion_eq (d : RecordDecoderV1) (value : List Nat) :
    CheckSchemaVersion d (Buf.init value d.le) =
      (decide (SchemaVersionOkP d value), ⟨value, 4, 0, d.le⟩) := by
  simp [CheckSchemaVersion, Buf.init, Buf.readInt, Buf.readNat, SchemaVersionOkP]

-- ### Entry-point normal forms

/-- Full decode rejects at the first check when the key's table id mismatches,
touching nothing. -/
theorem decode_fail1 (ops : SchemaOps V) (d : RecordDecoderV1)
    (key value : List Nat) (record : List (Cell V)) (h : ¬ CommonIdOkP d key) :
    Decode d ops key value record = (-1, record) := by
  simp [Decode, checkCommonId_eq, h]

/-- Full decode rejects at the second check when the key's codec tag is too
new, touching nothing. -/
theorem decode_fail2 (ops : SchemaOps V) (d : RecordDecoderV1)
    (key value : List Nat) (record : List (Cell V)) (h1 : CommonIdOkP d key)
    (h2 : ¬ CodecTagOkP d key) :
    Decode d ops key value record = (-1, record) := by
  simp [Decode, checkCommonId_eq, h1, checkReverseTag_eq_false d key h2]

/-- Full decode rejects at the third check when the value's schema version is
too new, touching nothing. -/
theorem decode_fail3 (ops : SchemaOps V) (d : RecordDecoderV1)
    (key value : List Nat) (record : List (Cell V)) (h1 : CommonIdOkP d key)
    (h2 : CodecTagOkP d key) (h3 : ¬ SchemaVersionOkP d value) :
    Decode d ops key value record = (-1, record) := by
  simp [Decode, checkCommonId_eq, h1, checkReverseTag_eq_true d key h2,
    checkSchemaVersion_eq, h3]

/-- Full decode under passing header checks: resize to the schema list length
and run the full pass with the post-check cursors. -/
theorem decode_success (ops : SchemaOps V) (d : RecordDecoderV1)
    (key value : List Nat) (record : List (Cell V)) (h1 : CommonIdOkP d key)
    (h2 : CodecTagOkP d key) (h3 : SchemaVersionOkP d value) :
    Decode d ops key value record =
      (0, (fullLoop ops d.schemas (resizeRecord record d.schemas.length)
        ⟨key, 9, 4, d.le⟩ ⟨value, 4, 0, d.le⟩).1) := by
  simp [Decode, checkCommonId_eq, h1, checkReverseTag_eq_true d key h2,
    checkSchemaVersion_eq, h3]

/-- Key-only decode rejects at the first check, touching nothing. -/
theorem decodeKey_fail1 (ops : SchemaOps V) (d : RecordDecoderV1)
    (key : List Nat) (record : List (Cell V)) (h : ¬ CommonIdOkP d key) :
    DecodeKey d ops key record = (-1, record) := by
  simp [DecodeKey, checkCommonId_eq, h]

/-- Key-only decode rejects at the second check, touching nothing. -/
theorem decodeKey_fail2 (ops : SchemaOps V) (d : RecordDecoderV1)
    (key : List Nat) (record : List (Cell V)) (h1 : CommonIdOkP d key)
    (h2 : ¬ CodecTagOkP d key) :
    DecodeKey d ops key record = (-1, record) := by
  simp [DecodeKey, checkCommonId_eq, h1, checkReverseTag_eq_false d key h2]

/-- Key-only decode under passing checks: resize to the schema list length and
run the key-only pass with the post-check key cursor. -/
theorem decodeKey_success (ops : SchemaOps V) (d : RecordDecoderV1)
    (key : List Nat) (record : List (Cell V)) (h1 : CommonIdOkP d key)
    (h2 : CodecTagOkP d key) :
    DecodeKey d ops key record =
      (0, (keyLoop ops d.schemas 0 (resizeRecord record d.schemas.length)
        ⟨key, 9, 4, d.le⟩).1) := by
  simp [DecodeKey, checkCommonId_eq, h1, checkReverseTag_eq_true d key h2]

/-- Projected decode rejects at the first check, touching nothing. -/
theorem decodeCols_fail1 (ops : SchemaOps V) (d : RecordDecoderV1)
    (key value : List Nat) (ci : List Int) (record : List (Cell V))
    (h : ¬ CommonIdOkP d key) :
    DecodeWithColumns d ops key value ci record = (-1, record) := by
  simp [DecodeWithColumns, checkCommonId_eq, h]

/-- Projected decode rejects at the second check, touching nothing. -/
theorem decodeCols_fail2 (ops : SchemaOps V) (d : RecordDecoderV1)
    (key value : List Nat) (ci : List Int) (record : List (Cell V))
    (h1 : CommonIdOkP d key) (h2 : ¬ CodecTagOkP d key) :
    DecodeWithColumns d ops key value ci record = (-1, record) := by
  simp [DecodeWithColumns, checkCommonId_eq, h1, checkReverseTag_eq_false d key h2]

/-- Projected decode rejects at the third check, touching nothing. -/
theorem decodeCols_fail3 (ops : SchemaOps V) (d : RecordDecoderV1)
    (key value : List Nat) (ci : List Int) (record : List (Cell V))
    (h1 : CommonIdOkP d key) (h2 : CodecTagOkP d key)
    (h3 : ¬ SchemaVersionOkP d value) :
    DecodeWithColumns d ops key value ci record = (-1, record) := by
  simp [DecodeWithColumns, checkCommonId_eq, h1, checkReverseTag_eq_true d key h2,
    checkSchemaVersion_eq, h3]

/-- Projected decode under passing checks: resize to the projection length,
build the sorted plan, run the pass from zeroed counters, status 0. -/
theorem decodeCols_success (ops : SchemaOps V) (d : RecordDecoderV1)
    (key value : List Nat) (ci : List Int) (record : List (Cell V))
    (h1 : CommonIdOkP d key) (h2 : CodecTagOkP d key)
    (h3 : SchemaVersionOkP d value) :
    DecodeWithColumns d ops key value ci record =
      (0, (projLoop ops ci.length (mkPlan ci) d.schemas
        ⟨resizeRecord record ci.length, ⟨key, 9, 4, d.le⟩, ⟨value, 4, 0, d.le⟩,
          0, 0, 0⟩).record) := by
  simp [DecodeWithColumns, checkCommonId_eq, h1, checkReverseTag_eq_true d key h2,
    checkSchemaVersion_eq, h3]

-- ### Projected-pass structure

/-- Once the request counter has reached the projection length, the pass
returns its state untouched whatever schema slots remain. -/
theorem projLoop_at_end (ops : SchemaOps V) (k : Nat) (plan : List (Int × Nat)) :
    ∀ (cs : List (Option ColumnSchema)) (st : PState V), st.n = k →
      projLoop ops k plan cs st = st
  | [], _, _ => rfl
  | _ :: _, st, h => by
    simp [projLoop, h]

/-- A null schema slot is passed over: it changes nothing in the loop state. -/
theorem projLoop_none (ops : SchemaOps V) (k : Nat) (plan : List (Int × Nat))
    (rest : List (Option ColumnSchema)) (st : PState V) :
    projLoop ops k plan (none :: rest) st = projLoop ops k plan rest st := by
  by_cases h : k = st.n
  · rw [projLoop, if_pos h, projLoop_at_end ops k plan rest st h.symm]
  · rw [projLoop, if_neg h]

/-- A present schema slot, before the early return, takes exactly one step. -/
theorem projLoop_cons_some (ops : SchemaOps V) (k : Nat)
    (plan : List (Int × Nat)) (s : ColumnSchema)
    (rest : List (Option ColumnSchema)) (st : PState V) (h : ¬ k = st.n) :
    projLoop ops k plan (some s :: rest) st =
      projLoop ops k plan rest (projStep ops plan s st) := by
  rw [projLoop, if_neg h]

/-- IsSkipOnly when the current position matches the pending request. -/
theorem isSkipOnly_match (plan : List (Int × Nat)) (n m ri : Nat)
    (h : (plan.getD n ((0 : Int), (0 : Nat))).1 = ((m : Nat) : Int)) :
    IsSkipOnly plan n m ri =
      ⟨false, n + 1, m + 1, (plan.getD n ((0 : Int), (0 : Nat))).2⟩ := by
  simp only [IsSkipOnly, h, beq_self_eq_true, if_true]

/-- IsSkipOnly when the current position does not match the pending request. -/
theorem isSkipOnly_nomatch (plan : List (Int × Nat)) (n m ri : Nat)
    (h : ¬ (plan.getD n ((0 : Int), (0 : Nat))).1 = ((m : Nat) : Int)) :
    IsSkipOnly plan n m ri = ⟨true, n, m + 1, ri⟩ := by
  simp only [IsSkipOnly]
  rw [if_neg (by simpa using h)]

/-- A matching present slot decodes into the pending request's output slot and
advances both counters. -/
theorem projStep_match (ops : SchemaOps V) (plan : List (Int × Nat))
    (s : ColumnSchema) (st : PState V)
    (h : (plan.getD st.n ((0 : Int), (0 : Nat))).1 = ((st.m : Nat) : Int)) :
    projStep ops plan s st =
      ⟨st.record.set (plan.getD st.n ((0 : Int), (0 : Nat))).2
        (cellValue ops s st.key_buf st.value_buf),
       (cursorAdv ops s st.key_buf st.value_buf).1,
       (cursorAdv ops s st.key_buf st.value_buf).2,
       st.n + 1, st.m + 1, (plan.getD st.n ((0 : Int), (0 : Nat))).2⟩ := by
  simp only [projStep, isSkipOnly_match plan st.n st.m st.record_index h,
    decodeOrSkip_eq]
  rw [castDecode_false]

/-- A non-matching present slot is skip-only: the record and the request
counter are unchanged and the position counter advances. -/
theorem projStep_nomatch_record (ops : SchemaOps V) (plan : List (Int × Nat))
    (s : ColumnSchema) (st : PState V)
    (h : ¬ (plan.getD st.n ((0 : Int), (0 : Nat))).1 = ((st.m : Nat) : Int)) :
    (projStep ops plan s st).record = st.record ∧
    (projStep ops plan s st).n = st.n ∧
    (projStep ops plan s st).m = st.m + 1 := by
  simp only [projStep, isSkipOnly_nomatch plan st.n st.m st.record_index h,
    decodeOrSkip_eq]
  refine ⟨castDecode_skip_record ops s st.key_buf st.value_buf st.record st.record_index,
    ?_, ?_⟩ <;> trivial

/-- With skip-consistent collaborators, a non-matching present slot leaves the
record alone and advances the cursors exactly as decoding would. -/
theorem projStep_nomatch (ops : SchemaOps V) (hops : SkipConsistent ops)
    (plan : List (Int × Nat)) (s : ColumnSchema) (st : PState V)
    (h : ¬ (plan.getD st.n ((0 : Int), (0 : Nat))).1 = ((st.m : Nat) : Int)) :
    projStep ops plan s st =
      ⟨st.record,
       (cursorAdv ops s st.key_buf st.value_buf).1,
       (cursorAdv ops s st.key_buf st.value_buf).2,
       st.n, st.m + 1, st.record_index⟩ := by
  simp only [projStep, isSkipOnly_nomatch plan st.n st.m st.record_index h,
    decodeOrSkip_eq]
  rw [castDecode_skip ops hops]

/-- The position counter advances by exactly one on every present-slot step. -/
theorem projStep_m (ops : SchemaOps V) (plan : List (Int × Nat))
    (s : ColumnSchema) (st : PState V) :
    (projStep ops plan s st).m = st.m + 1 := by
  by_cases h : (plan.getD st.n ((0 : Int), (0 : Nat))).1 = ((st.m : Nat) : Int)
  · rw [projStep_match ops plan s st h]
  · exact (projStep_nomatch_record ops plan s st h).2.2

/-- The pass never changes the length of the output record. -/
theorem projLoop_record_length (ops : SchemaOps V) (k : Nat)
    (plan : List (Int × Nat)) :
    ∀ (cs : List (Option ColumnSchema)) (st : PState V),
      (projLoop ops k plan cs st).record.length = st.record.length
  | [], _ => rfl
  | none :: rest, st => by
    rw [projLoop_none]
    exact projLoop_record_length ops k plan rest st
  | some s :: rest, st => by
    by_cases h : k = st.n
    · rw [projLoop_at_end ops k plan _ st h.symm]
    · rw [projLoop_cons_some ops k plan s rest st h]
      rw [projLoop_record_length ops k plan rest _]
      by_cases hm : (plan.getD st.n ((0 : Int), (0 : Nat))).1 = ((st.m : Nat) : Int)
      · rw [projStep_match ops plan s st hm]
        simp
      · exact congrArg List.length (projStep_nomatch_record ops plan s st hm).1

/-- Output slots outside the satisfied requests are never written by the pass. -/
theorem projLoop_preserve (ops : SchemaOps V) (k : Nat)
    (plan : List (Int × Nat)) :
    ∀ (cs : List (Option ColumnSchema)) (st : PState V) (j : Nat),
      j ∉ projMatched k plan cs st.n st.m →
      (projLoop ops k plan cs st).record[j]? = st.record[j]?
  | [], _, _, _ => rfl
  | none :: rest, st, j, hj => by
    by_cases h : k = st.n
    · rw [projLoop_at_end ops k plan _ st h.symm]
    · rw [projLoop_none]
      rw [projMatched, if_neg h] at hj
      exact projLoop_preserve ops k plan rest st j hj
  | some s :: rest, st, j, hj => by
    by_cases h : k = st.n
    · rw [projLoop_at_end ops k plan _ st h.symm]
    · rw [projMatched, if_neg h] at hj
      rw [projLoop_cons_some ops k plan s rest st h]
      by_cases hm : (plan.getD st.n ((0 : Int), (0 : Nat))).1 = ((st.m : Nat) : Int)
      · rw [if_pos (by simpa using hm)] at hj
        simp only [List.mem_cons, not_or] at hj
        obtain ⟨hj1, hj2⟩ := hj
        have hpres := projLoop_preserve ops k plan rest (projStep ops plan s st) j
        rw [projStep_match ops plan s st hm] at hpres ⊢
        rw [hpres hj2]
        exact List.getElem?_set_ne (fun hc => hj1 hc.symm)
      · rw [if_neg (by simpa using hm)] at hj
        obtain ⟨hr, hn, hmm⟩ := projStep_nomatch_record ops plan s st hm
        have hpres := projLoop_preserve ops k plan rest (projStep ops plan s st) j
        rw [hr, hn, hmm] at hpres
        exact hpres hj

/-- Every slot the pass matches is the output slot of a still-pending plan
entry. -/
theorem projMatched_mem (k : Nat) (plan : List (Int × Nat)) (hk : k = plan.length) :
    ∀ (cs : List (Option ColumnSchema)) (n m x : Nat), n ≤ k →
      x ∈ projMatched k plan cs n m →
      ∃ j, n ≤ j ∧ j < plan.length ∧ x = (plan.getD j ((0 : Int), (0 : Nat))).2
  | [], _, _, _, _, hx => absurd hx (List.not_mem_nil _)
  | none :: rest, n, m, x, hn, hx => by
    rw [projMatched] at hx
    by_cases h : k = n
    · rw [if_pos h] at hx
      exact absurd hx (List.not_mem_nil _)
    · rw [if_neg h] at hx
      exact projMatched_mem k plan hk rest n m x hn hx
  | some s :: rest, n, m, x, hn, hx => by
    rw [projMatched] at hx
    by_cases h : k = n
    · rw [if_pos h] at hx
      exact absurd hx (List.not_mem_nil _)
    · rw [if_neg h] at hx
      by_cases hm : ((plan.getD n ((0 : Int), (0 : Nat))).1 == ((m : Nat) : Int)) = true
      · rw [if_pos hm] at hx
        rcases List.mem_cons.mp hx with hc | hc
        · exact ⟨n, le_refl n, by omega, hc⟩
        · obtain ⟨j, hj1, hj2, hj3⟩ :=
            projMatched_mem k plan hk rest (n + 1) (m + 1) x (by omega) hc
          exact ⟨j, by omega, hj2, hj3⟩
      · rw [if_neg hm] at hx
        exact projMatched_mem k plan hk rest n (m + 1) x hn hx

-- ### Key-only pass structure

/-- The key-only pass with a key column at the head: decode into the current
enumeration slot and thread the advanced key cursor. -/
theorem keyLoop_cons_key (ops : SchemaOps V) (s : ColumnSchema)
    (rest : List (Option ColumnSchema)) (index : Nat) (record : List (Cell V))
    (kb : Buf) (hk : s.is_key = true) :
    keyLoop ops (some s :: rest) index record kb =
      keyLoop ops rest (index + 1)
        (record.set index (Cell.value (ops.decodeKeyFn s kb).1))
        (ops.decodeKeyFn s kb).2 := by
  simp only [keyLoop, hk, if_true, decodeOrSkip_eq, castDecode_false]
  simp [cellValue, cursorAdv, hk]

/-- The key-only pass never changes the record length. -/
theorem keyLoop_length (ops : SchemaOps V) :
    ∀ (cs : List (Option ColumnSchema)) (i0 : Nat) (r : List (Cell V)) (kb : Buf),
      (keyLoop ops cs i0 r kb).1.length = r.length
  | [], _, _, _ => rfl
  | none :: rest, i0, r, kb => keyLoop_length ops rest (i0 + 1) r kb
  | some s :: rest, i0, r, kb => by
    by_cases hk : s.is_key = true
    · rw [keyLoop_cons_key ops s rest i0 r kb hk]
      rw [keyLoop_length ops rest (i0 + 1) _ _]
      exact List.length_set r i0 _
    · rw [keyLoop]
      rw [if_neg (by simpa using hk)]
      exact keyLoop_length ops rest (i0 + 1) r kb

/-- The key-only pass never writes below its starting enumeration index. -/
theorem keyLoop_preserve_low (ops : SchemaOps V) :
    ∀ (cs : List (Option ColumnSchema)) (i0 : Nat) (r : List (Cell V)) (kb : Buf)
      (j : Nat), j < i0 →
      (keyLoop ops cs i0 r kb).1[j]? = r[j]?
  | [], _, _, _, _, _ => rfl
  | none :: rest, i0, r, kb, j, hj =>
    keyLoop_preserve_low ops rest (i0 + 1) r kb j (by omega)
  | some s :: rest, i0, r, kb, j, hj => by
    by_cases hk : s.is_key = true
    · rw [keyLoop_cons_key ops s rest i0 r kb hk]
      rw [keyLoop_preserve_low ops rest (i0 + 1) _ _ j (by omega)]
      exact List.getElem?_set_ne (by omega)
    · rw [keyLoop]
      rw [if_neg (by simpa using hk)]
      exact keyLoop_preserve_low ops rest (i0 + 1) r kb j (by omega)

/-- What the key-only pass leaves at each slot: present key slots hold the
value decoded at the threaded key cursor, written at the enumeration position;
all other slots keep their prior content. -/
theorem keyLoop_getElem (ops : SchemaOps V) :
    ∀ (cs : List (Option ColumnSchema)) (i0 : Nat) (r : List (Cell V)) (kb : Buf)
      (t : Nat), t < cs.length →
      (keyLoop ops cs i0 r kb).1[i0 + t]? =
        (match cs.getD t none with
         | some s =>
           if s.is_key = true then
             (if i0 + t < r.length then
               some (Cell.value (ops.decodeKeyFn s
                 (keyCursorAfter ops (cs.take t) kb)).1)
              else none)
           else r[i0 + t]?
         | none => r[i0 + t]?)
  | [], _, _, _, t, ht => absurd ht (by simp)
  | none :: rest, i0, r, kb, t, ht => by
    cases t with
    | zero =>
      simp only [List.getD_cons_zero, Nat.add_zero]
      rw [keyLoop]
      exact keyLoop_preserve_low ops rest (i0 + 1) r kb i0 (by omega)
    | succ t =>
      simp only [List.getD_cons_succ, List.take_succ_cons, keyCursorAfter]
      have harith : i0 + (t + 1) = (i0 + 1) + t := by omega
      rw [harith, keyLoop]
      exact keyLoop_getElem ops rest (i0 + 1) r kb t (by simpa using ht)
  | some s :: rest, i0, r, kb, t, ht => by
    by_cases hk : s.is_key = true
    · rw [keyLoop_cons_key ops s rest i0 r kb hk]
      cases t with
      | zero =>
        simp only [List.getD_cons_zero, Nat.add_zero, List.take_zero,
          keyCursorAfter, hk, if_true]
        rw [keyLoop_preserve_low ops rest (i0 + 1) _ _ i0 (by omega)]
        by_cases hlt : i0 < r.length
        · rw [if_pos hlt]
          exact List.getElem?_set_self (by simpa using hlt)
        · rw [if_neg hlt]
          rw [List.getElem?_eq_none]
          simp
          omega
      | succ t =>
        simp only [List.getD_cons_succ, List.take_succ_cons, keyCursorAfter, hk,
          if_true]
        have harith : i0 + (t + 1) = (i0 + 1) + t := by omega
        rw [harith]
        rw [keyLoop_getElem ops rest (i0 + 1) _ _ t (by simpa using ht)]
        cases hbs : rest.getD t none with
        | none =>
          simp only []
          rw [List.getElem?_set_ne (by omega)]
        | some s2 =>
          simp only []
          by_cases hk2 : s2.is_key = true
          · simp only [hk2, if_true, List.length_set]
          · simp only [hk2, if_false, Bool.false_eq_true]
            rw [List.getElem?_set_ne (by omega)]
    · rw [keyLoop]
      rw [if_neg (by simpa using hk)]
      cases t with
      | zero =>
        simp only [List.getD_cons_zero, Nat.add_zero, hk]
        rw [keyLoop_preserve_low ops rest (i0 + 1) r kb i0 (by omega)]
        simp [hk]
      | succ t =>
        simp only [List.getD_cons_succ, List.take_succ_cons, keyCursorAfter, hk]
        have harith : i0 + (t + 1) = (i0 + 1) + t := by omega
        rw [harith]
        rw [keyLoop_getElem ops rest (i0 + 1) r kb t (by simpa using ht)]
        simp [hk]

/-- The status of full decode is 0 or -1, by whether all header checks pass. -/
theorem decode_status (ops : SchemaOps V) (d : RecordDecoderV1)
    (key value : List Nat) (record : List (Cell V)) :
    (Decode d ops key value record).1 =
      if CommonIdOkP d key ∧ CodecTagOkP d key ∧ SchemaVersionOkP d value
      then 0 else -1 := by
  by_cases h1 : CommonIdOkP d key
  · by_cases h2 : CodecTagOkP d key
    · by_cases h3 : SchemaVersionOkP d value
      · rw [decode_success ops d key value record h1 h2 h3]
        simp [h1, h2, h3]
      · rw [decode_fail3 ops d key value record h1 h2 h3]
        simp [h1, h2, h3]
    · rw [decode_fail2 ops d key value record h1 h2]
      simp [h1, h2]
  · rw [decode_fail1 ops d key value record h1]
    simp [h1]

-- ### Full-pass structure

/-- The record the full pass produces is its write sequence applied in order. -/
theorem fullLoop_record (ops : SchemaOps V) :
    ∀ (cs : List (Option ColumnSchema)) (r : List (Cell V)) (kb vb : Buf),
      (fullLoop ops cs r kb vb).1 = applyWrites (fullWrites ops cs kb vb) r
  | [], _, _, _ => rfl
  | none :: rest, r, kb, vb => fullLoop_record ops rest r kb vb
  | some s :: rest, r, kb, vb => by
    simp only [fullLoop, decodeOrSkip_eq, castDecode_false, fullWrites,
      applyWrites]
    exact fullLoop_record ops rest _ _ _

/-- Applying writes never changes the record length. -/
theorem applyWrites_length :
    ∀ (ws : List (Nat × Cell V)) (r : List (Cell V)),
      (applyWrites ws r).length = r.length
  | [], _ => rfl
  | (i, v) :: ws, r => by
    rw [applyWrites, applyWrites_length ws _, List.length_set]

/-- A slot no write targets keeps its prior content. -/
theorem applyWrites_getElem_none :
    ∀ (ws : List (Nat × Cell V)) (r : List (Cell V)) (j : Nat),
      lastWrite ws j = none → (applyWrites ws r)[j]? = r[j]?
  | [], _, _, _ => rfl
  | (i, v) :: ws, r, j, h => by
    rw [lastWrite] at h
    cases hl : lastWrite ws j with
    | some w =>
      rw [hl] at h
      exact absurd h (by simp)
    | none =>
      rw [hl] at h
      have hij : i ≠ j := by
        intro he
        rw [if_pos he] at h
        exact absurd h (by simp)
      rw [applyWrites, applyWrites_getElem_none ws _ j hl]
      exact List.getElem?_set_ne hij

/-- An in-range slot holds the value of the last write targeting it. -/
theorem applyWrites_getElem_some :
    ∀ (ws : List (Nat × Cell V)) (r : List (Cell V)) (j : Nat) (v : Cell V),
      lastWrite ws j = some v → j < r.length → (applyWrites ws r)[j]? = some v
  | [], _, _, _, h, _ => by
    rw [lastWrite] at h
    exact absurd h (by simp)
  | (i, w) :: ws, r, j, v, h, hj => by
    rw [lastWrite] at h
    cases hl : lastWrite ws j with
    | some w2 =>
      rw [hl] at h
      rw [applyWrites]
      refine applyWrites_getElem_some ws _ j v ?_ ?_
      · rw [hl]
        exact h
      · rw [List.length_set]
        exact hj
    | none =>
      rw [hl] at h
      by_cases hij : i = j
      · rw [if_pos hij] at h
        rw [applyWrites, applyWrites_getElem_none ws _ j hl]
        subst hij
        rw [List.getElem?_set_self (by simpa using hj)]
        exact h
      · rw [if_neg hij] at h
        exact absurd h (by simp)

/-- Applying the same write sequence a second time changes nothing. -/
theorem applyWrites_idem (ws : List (Nat × Cell V)) (r : List (Cell V)) :
    applyWrites ws (applyWrites ws r) = applyWrites ws r := by
  apply List.ext_getElem?
  intro j
  by_cases hj : j < r.length
  · cases hl : lastWrite ws j with
    | some v =>
      rw [applyWrites_getElem_some ws _ j v hl
        (by rw [applyWrites_length]; exact hj)]
      rw [applyWrites_getElem_some ws r j v hl hj]
    | none =>
      rw [applyWrites_getElem_none ws _ j hl,
        applyWrites_getElem_none ws r j hl]
  · have h1 : (applyWrites ws r)[j]? = none :=
      List.getElem?_eq_none (by rw [applyWrites_length]; omega)
    have h2 : (applyWrites ws (applyWrites ws r))[j]? = none :=
      List.getElem?_eq_none (by rw [applyWrites_length, applyWrites_length]; omega)
    rw [h1, h2]

-- ### Sort-plan structure

/-- Pairwise facts transfer to getD accesses at increasing indices. -/
theorem pairwise_getD {R : (Int × Nat) → (Int × Nat) → Prop}
    (plan : List (Int × Nat)) (h : plan.Pairwise R) (i j : Nat)
    (hi : i < plan.length) (hj : j < plan.length) (hij : i < j) :
    R (plan.getD i ((0 : Int), (0 : Nat))) (plan.getD j ((0 : Int), (0 : Nat))) := by
  have h1 : plan.getD i ((0 : Int), (0 : Nat)) = plan[i] := by
    rw [List.getD_eq_getElem?_getD, List.getElem?_eq_getElem hi]
    rfl
  have h2 : plan.getD j ((0 : Int), (0 : Nat)) = plan[j] := by
    rw [List.getD_eq_getElem?_getD, List.getElem?_eq_getElem hj]
    rfl
  rw [h1, h2]
  exact List.pairwise_iff_getElem.mp h i j hi hj hij

/-- The raw pair list has the projection's length. -/
theorem mkPlanPairs_length :
    ∀ (ci : List Int) (i0 : Nat), (mkPlanPairs ci i0).length = ci.length
  | [], _ => rfl
  | _ :: cs, i0 => by
    rw [mkPlanPairs, List.length_cons, List.length_cons,
      mkPlanPairs_length cs (i0 + 1)]

/-- The raw pair list carries the requested positions in order. -/
theorem mkPlanPairs_map_fst :
    ∀ (ci : List Int) (i0 : Nat), (mkPlanPairs ci i0).map Prod.fst = ci
  | [], _ => rfl
  | c :: cs, i0 => by
    rw [mkPlanPairs, List.map_cons, mkPlanPairs_map_fst cs (i0 + 1)]

/-- The i-th raw pair is the i-th request with output slot i0 + i. -/
theorem mkPlanPairs_getElem :
    ∀ (ci : List Int) (i0 i : Nat), i < ci.length →
      (mkPlanPairs ci i0)[i]? = some (ci.getD i 0, i0 + i)
  | [], _, _, h => absurd h (by simp)
  | c :: cs, i0, 0, _ => by
    simp [mkPlanPairs]
  | c :: cs, i0, i + 1, h => by
    rw [mkPlanPairs, List.getElem?_cons_succ,
      mkPlanPairs_getElem cs (i0 + 1) i (by simpa using h)]
    rw [List.getD_cons_succ]
    have harith : i0 + 1 + i = i0 + (i + 1) := by omega
    rw [harith]

/-- Every raw pair's output slot is in range and its position is the request
at that slot. -/
theorem mkPlanPairs_mem :
    ∀ (ci : List Int) (i0 : Nat) (pr : Int × Nat), pr ∈ mkPlanPairs ci i0 →
      i0 ≤ pr.2 ∧ pr.2 < i0 + ci.length ∧ ci.getD (pr.2 - i0) 0 = pr.1
  | [], _, _, h => absurd h (List.not_mem_nil _)
  | c :: cs, i0, pr, h => by
    rcases List.mem_cons.mp h with h | h
    · subst h
      simp
    · obtain ⟨ha, hb, hc⟩ := mkPlanPairs_mem cs (i0 + 1) pr h
      refine ⟨by omega, by simp only [List.length_cons]; omega, ?_⟩
      have harith : pr.2 - i0 = (pr.2 - (i0 + 1)) + 1 := by omega
      rw [harith, List.getD_cons_succ]
      exact hc

/-- The raw pairs' output slots are strictly increasing. -/
theorem mkPlanPairs_snd_lt :
    ∀ (ci : List Int) (i0 : Nat),
      (mkPlanPairs ci i0).Pairwise (fun a b => a.2 < b.2)
  | [], _ => List.Pairwise.nil
  | c :: cs, i0 => by
    rw [mkPlanPairs]
    refine List.Pairwise.cons ?_ (mkPlanPairs_snd_lt cs (i0 + 1))
    intro pr hpr
    have h := (mkPlanPairs_mem cs (i0 + 1) pr hpr).1
    simp only []
    omega

/-- The sorted plan is a permutation of the raw pairs. -/
theorem mkPlan_perm (ci : List Int) :
    List.Perm (mkPlan ci) (mkPlanPairs ci 0) :=
  List.perm_insertionSort pairLe (mkPlanPairs ci 0)

/-- The sorted plan has the projection's length. -/
theorem mkPlan_length (ci : List Int) : (mkPlan ci).length = ci.length := by
  rw [(mkPlan_perm ci).length_eq, mkPlanPairs_length]

/-- With distinct requested positions, the sorted plan's positions are
strictly increasing. -/
theorem mkPlan_fst_lt (ci : List Int) (hdist : ci.Pairwise (fun a b => a ≠ b)) :
    (mkPlan ci).Pairwise (fun a b => a.1 < b.1) := by
  have hsorted : (mkPlan ci).Pairwise pairLe :=
    List.sorted_insertionSort pairLe (mkPlanPairs ci 0)
  have hne0 : (mkPlanPairs ci 0).Pairwise (fun a b => a.1 ≠ b.1) := by
    rw [← mkPlanPairs_map_fst ci 0] at hdist
    exact List.pairwise_map.mp hdist
  have hne : (mkPlan ci).Pairwise (fun a b => a.1 ≠ b.1) :=
    (List.Perm.pairwise_iff (fun h => h.symm) (mkPlan_perm ci)).mpr hne0
  refine List.Pairwise.imp ?_ (hsorted.and hne)
  intro a b h
  obtain ⟨hle, hab⟩ := h
  rcases hle with h | h
  · exact h
  · exact absurd h.1 hab

/-- The sorted plan's output slots are pairwise distinct. -/
theorem mkPlan_snd_ne (ci : List Int) :
    (mkPlan ci).Pairwise (fun a b => a.2 ≠ b.2) := by
  have h0 : (mkPlanPairs ci 0).Pairwise (fun a b => a.2 ≠ b.2) :=
    List.Pairwise.imp (fun h => Nat.ne_of_lt h) (mkPlanPairs_snd_lt ci 0)
  exact (List.Perm.pairwise_iff (fun h => h.symm) (mkPlan_perm ci)).mpr h0

/-- Every request appears in the sorted plan, paired with its output slot. -/
theorem mkPlan_mem (ci : List Int) (i : Nat) (hi : i < ci.length) :
    (ci.getD i 0, i) ∈ mkPlan ci := by
  have h0 : (ci.getD i 0, i) ∈ mkPlanPairs ci 0 := by
    refine List.mem_iff_getElem?.mpr ⟨i, ?_⟩
    rw [mkPlanPairs_getElem ci 0 i hi, Nat.zero_add]
  exact (mkPlan_perm ci).mem_iff.mpr h0

/-- Every sorted-plan entry is a request of the projection with an in-range
output slot. -/
theorem mkPlan_entry (ci : List Int) (pr : Int × Nat) (h : pr ∈ mkPlan ci) :
    pr.1 ∈ ci ∧ pr.2 < ci.length := by
  have h0 : pr ∈ mkPlanPairs ci 0 := (mkPlan_perm ci).mem_iff.mp h
  constructor
  · rw [← mkPlanPairs_map_fst ci 0]
    exact List.mem_map_of_mem Prod.fst h0
  · have := (mkPlanPairs_mem ci 0 pr h0).2.1
    omega

-- ### Full-decode value characterization

/-- The write sequence of an all-present schema list targets exactly the
declared output indices, in schema order. -/
theorem fullWrites_map_fst (ops : SchemaOps V) :
    ∀ (cs : List ColumnSchema) (kb vb : Buf),
      (fullWrites ops (cs.map some) kb vb).map Prod.fst =
        cs.map (fun s => s.index)
  | [], _, _ => rfl
  | c :: cs, kb, vb => by
    simp only [List.map_cons, fullWrites]
    rw [fullWrites_map_fst ops cs _ _]

/-- A slot outside a write sequence's targets has no last write. -/
theorem lastWrite_not_mem :
    ∀ (ws : List (Nat × Cell V)) (j : Nat), j ∉ ws.map Prod.fst →
      lastWrite ws j = none
  | [], _, _ => rfl
  | (i, v) :: ws, j, h => by
    simp only [List.map_cons, List.mem_cons, not_or] at h
    rw [lastWrite, lastWrite_not_mem ws j h.2]
    rw [if_neg (fun he => h.1 he.symm)]

/-- With distinct output indices, the last (and only) write to the p-th
column's index is its decoded cell at the threaded cursors. -/
theorem fullWrites_lastWrite (ops : SchemaOps V) :
    ∀ (cs : List ColumnSchema) (kb vb : Buf) (p : Nat), p < cs.length →
      cs.Pairwise (fun a b => a.index ≠ b.index) →
      lastWrite (fullWrites ops (cs.map some) kb vb)
        ((cs.getD p default).index) =
        some (cellValue ops (cs.getD p default)
          (advanceCursors ops ((cs.take p).map some) kb vb).1
          (advanceCursors ops ((cs.take p).map some) kb vb).2)
  | [], _, _, p, hp, _ => absurd hp (by simp)
  | c :: cs, kb, vb, 0, _, hpw => by
    simp only [List.map_cons, fullWrites, List.getD_cons_zero, List.take_zero,
      advanceCursors]
    rw [lastWrite]
    have hnone : lastWrite (fullWrites ops (cs.map some)
        (cursorAdv ops c kb vb).1 (cursorAdv ops c kb vb).2) c.index = none := by
      apply lastWrite_not_mem
      rw [fullWrites_map_fst]
      intro hmem
      obtain ⟨s, hs, heq⟩ := List.mem_map.mp hmem
      exact (List.pairwise_cons.mp hpw).1 s hs heq.symm
    rw [hnone, if_pos rfl]
  | c :: cs, kb, vb, p + 1, hp, hpw => by
    simp only [List.map_cons, fullWrites, List.getD_cons_succ,
      List.take_succ_cons, advanceCursors]
    rw [lastWrite]
    rw [fullWrites_lastWrite ops cs _ _ p (by simpa using hp)
      (List.pairwise_cons.mp hpw).2]

/-- What full decode writes at the p-th schema column's declared output index:
the cell decoded at the sequentially threaded cursors. -/
theorem decode_full_at_index (ops : SchemaOps V) (d : RecordDecoderV1)
    (key value : List Nat) (record : List (Cell V)) (cs : List ColumnSchema)
    (hschemas : d.schemas = cs.map some)
    (hpw : cs.Pairwise (fun a b => a.index ≠ b.index))
    (hidxlt : ∀ s ∈ cs, s.index < cs.length)
    (h1 : CommonIdOkP d key) (h2 : CodecTagOkP d key)
    (h3 : SchemaVersionOkP d value) (p : Nat) (hp : p < cs.length) :
    (Decode d ops key value record).2[(cs.getD p default).index]? =
      some (cellValue ops (cs.getD p default)
        (advanceCursors ops ((cs.take p).map some)
          ⟨key, 9, 4, d.le⟩ ⟨value, 4, 0, d.le⟩).1
        (advanceCursors ops ((cs.take p).map some)
          ⟨key, 9, 4, d.le⟩ ⟨value, 4, 0, d.le⟩).2) := by
  have hsnd : (Decode d ops key value record).2 =
      (fullLoop ops (cs.map some)
        (resizeRecord record (cs.map some).length)
        ⟨key, 9, 4, d.le⟩ ⟨value, 4, 0, d.le⟩).1 := by
    rw [decode_success ops d key value record h1 h2 h3, hschemas]
  have hmem : cs.getD p default ∈ cs := by
    rw [List.getD_eq_getElem?_getD, List.getElem?_eq_getElem hp]
    simp only [Option.getD_some]
    exact List.getElem_mem hp
  rw [hsnd, fullLoop_record]
  apply applyWrites_getElem_some
  · exact fullWrites_lastWrite ops cs _ _ p hp hpw
  · rw [resizeRecord_length, List.length_map]
    exact hidxlt _ hmem

-- ### Projection matching

/-- The heart of projection correctness: over an all-present schema segment,
when the still-pending sorted-plan entries have strictly increasing positions
lying inside the segment (relative to the position counter) and in-range
output slots, the pass decodes each pending request into its output slot with
the cell of the requested column at the sequentially threaded cursors. -/
theorem projLoop_matches (ops : SchemaOps V) (hops : SkipConsistent ops)
    (k : Nat) (plan : List (Int × Nat))
    (hinc : plan.Pairwise (fun a b => a.1 < b.1))
    (hsnd : plan.Pairwise (fun a b => a.2 ≠ b.2))
    (hk : k = plan.length) (cs : List ColumnSchema) :
    ∀ (st : PState V),
      (∀ j, st.n ≤ j → j < plan.length →
        ((st.m : Int) ≤ (plan.getD j ((0 : Int), (0 : Nat))).1 ∧
         (plan.getD j ((0 : Int), (0 : Nat))).1 < (st.m : Int) + cs.length ∧
         (plan.getD j ((0 : Int), (0 : Nat))).2 < st.record.length)) →
      ∀ j, st.n ≤ j → j < plan.length →
        (projLoop ops k plan (cs.map some) st).record[(plan.getD j
            ((0 : Int), (0 : Nat))).2]? =
          some (cellValue ops
            (cs.getD ((plan.getD j ((0 : Int), (0 : Nat))).1 -
              (st.m : Int)).toNat default)
            (advanceCursors ops ((cs.take ((plan.getD j ((0 : Int), (0 : Nat))).1 -
              (st.m : Int)).toNat).map some) st.key_buf st.value_buf).1
            (advanceCursors ops ((cs.take ((plan.getD j ((0 : Int), (0 : Nat))).1 -
              (st.m : Int)).toNat).map some) st.key_buf st.value_buf).2) := by
  induction cs with
  | nil =>
    intro st hrange j hj1 hj2
    exfalso
    obtain ⟨ha, hb, _⟩ := hrange j hj1 hj2
    simp only [List.length_nil] at hb
    omega
  | cons c cs ih =>
    intro st hrange j hj1 hj2
    have hnlt : st.n < plan.length := by omega
    by_cases hdone : k = st.n
    · exfalso
      omega
    · rw [List.map_cons, projLoop_cons_some ops k plan c (cs.map some) st hdone]
      by_cases hmatch : (plan.getD st.n ((0 : Int), (0 : Nat))).1 = (st.m : Int)
      · have hstep := projStep_match ops plan c st hmatch
        have hrec : (projStep ops plan c st).record =
            st.record.set (plan.getD st.n ((0 : Int), (0 : Nat))).2
              (cellValue ops c st.key_buf st.value_buf) := by rw [hstep]
        have hn' : (projStep ops plan c st).n = st.n + 1 := by rw [hstep]
        have hm' : (projStep ops plan c st).m = st.m + 1 := by rw [hstep]
        have hkb : (projStep ops plan c st).key_buf =
            (cursorAdv ops c st.key_buf st.value_buf).1 := by rw [hstep]
        have hvb : (projStep ops plan c st).value_buf =
            (cursorAdv ops c st.key_buf st.value_buf).2 := by rw [hstep]
        have hrange' : ∀ j2, (projStep ops plan c st).n ≤ j2 → j2 < plan.length →
            ((((projStep ops plan c st).m : Nat) : Int) ≤
              (plan.getD j2 ((0 : Int), (0 : Nat))).1 ∧
             (plan.getD j2 ((0 : Int), (0 : Nat))).1 <
              (((projStep ops plan c st).m : Nat) : Int) + cs.length ∧
             (plan.getD j2 ((0 : Int), (0 : Nat))).2 <
              (projStep ops plan c st).record.length) := by
          intro j2 hj2a hj2b
          rw [hn'] at hj2a
          obtain ⟨ha, hb, hc⟩ := hrange j2 (by omega) hj2b
          have hlt := pairwise_getD plan hinc st.n j2 hnlt hj2b (by omega)
          rw [hm', hrec]
          simp only [List.length_cons] at hb
          refine ⟨by push_cast; omega, by push_cast at hb ⊢; omega, ?_⟩
          rw [List.length_set]
          exact hc
        by_cases hjn : j = st.n
        · rw [hjn]
          have hidx : ((plan.getD st.n ((0 : Int), (0 : Nat))).1 -
              (st.m : Int)).toNat = 0 := by
            rw [hmatch]
            simp
          rw [hidx]
          simp only [List.getD_cons_zero, List.take_zero, List.map_nil,
            advanceCursors]
          have hnotin : (plan.getD st.n ((0 : Int), (0 : Nat))).2 ∉
              projMatched k plan (cs.map some) (projStep ops plan c st).n
                (projStep ops plan c st).m := by
            rw [hn', hm']
            intro hmem
            obtain ⟨j2, hj2a, hj2b, hj2c⟩ := projMatched_mem k plan hk
              (cs.map some) (st.n + 1) (st.m + 1) _ (by omega) hmem
            have hne := pairwise_getD plan hsnd st.n j2 hnlt hj2b (by omega)
            exact hne hj2c
          rw [projLoop_preserve ops k plan (cs.map some)
            (projStep ops plan c st) _ hnotin]
          rw [hrec]
          rw [List.getElem?_set_self (hrange st.n (le_refl st.n) hnlt).2.2]
        · have hgt : (st.m : Int) < (plan.getD j ((0 : Int), (0 : Nat))).1 := by
            have := pairwise_getD plan hinc st.n j hnlt hj2 (by omega)
            omega
          have hih := ih (projStep ops plan c st) hrange' j (by omega) hj2
          rw [hm', hkb, hvb] at hih
          have ht : ((plan.getD j ((0 : Int), (0 : Nat))).1 - (st.m : Int)).toNat =
              (((plan.getD j ((0 : Int), (0 : Nat))).1 -
                ((st.m + 1 : Nat) : Int)).toNat) + 1 := by
            push_cast
            omega
          rw [ht]
          simp only [List.getD_cons_succ, List.take_succ_cons, List.map_cons,
            advanceCursors]
          exact hih
      · have hstep := projStep_nomatch ops hops plan c st hmatch
        have hrec : (projStep ops plan c st).record = st.record := by rw [hstep]
        have hn' : (projStep ops plan c st).n = st.n := by rw [hstep]
        have hm' : (projStep ops plan c st).m = st.m + 1 := by rw [hstep]
        have hkb : (projStep ops plan c st).key_buf =
            (cursorAdv ops c st.key_buf st.value_buf).1 := by rw [hstep]
        have hvb : (projStep ops plan c st).value_buf =
            (cursorAdv ops c st.key_buf st.value_buf).2 := by rw [hstep]
        have hgtn : (st.m : Int) < (plan.getD st.n ((0 : Int), (0 : Nat))).1 := by
          obtain ⟨ha, _, _⟩ := hrange st.n (le_refl _) hnlt
          omega
        have hrange' : ∀ j2, (projStep ops plan c st).n ≤ j2 → j2 < plan.length →
            ((((projStep ops plan c st).m : Nat) : Int) ≤
              (plan.getD j2 ((0 : Int), (0 : Nat))).1 ∧
             (plan.getD j2 ((0 : Int), (0 : Nat))).1 <
              (((projStep ops plan c st).m : Nat) : Int) + cs.length ∧
             (plan.getD j2 ((0 : Int), (0 : Nat))).2 <
              (projStep ops plan c st).record.length) := by
          intro j2 hj2a hj2b
          rw [hn'] at hj2a
          obtain ⟨ha, hb, hc⟩ := hrange j2 hj2a hj2b
          rw [hm', hrec]
          simp only [List.length_cons] at hb
          have hge : (st.m : Int) + 1 ≤ (plan.getD j2 ((0 : Int), (0 : Nat))).1 := by
            by_cases hj2n : j2 = st.n
            · subst hj2n
              omega
            · have := pairwise_getD plan hinc st.n j2 hnlt hj2b (by omega)
              omega
          refine ⟨by push_cast; omega, by push_cast at hb ⊢; omega, hc⟩
        have hgtj : (st.m : Int) < (plan.getD j ((0 : Int), (0 : Nat))).1 := by
          by_cases hjn : j = st.n
          · subst hjn
            exact hgtn
          · have := pairwise_getD plan hinc st.n j hnlt hj2 (by omega)
            omega
        have hih := ih (projStep ops plan c st) hrange' j (by omega) hj2
        rw [hm', hkb, hvb] at hih
        have ht : ((plan.getD j ((0 : Int), (0 : Nat))).1 - (st.m : Int)).toNat =
            (((plan.getD j ((0 : Int), (0 : Nat))).1 -
              ((st.m + 1 : Nat) : Int)).toNat) + 1 := by
          push_cast
          omega
        rw [ht]
        simp only [List.getD_cons_succ, List.take_succ_cons, List.map_cons,
          advanceCursors]
        exact hih

-- ### Claim theorems

/-- C1: full decode returns the rejected status -1 exactly when one of the
three header checks fails (the table identifier after the 1 skipped namespace
byte mismatches, the key's tail byte exceeds the codec version, or the value's
leading 4-byte integer exceeds the schema version); the checks run in that
order and the first failure short-circuits to the single uniform result
(-1, untouched record) before any column is decoded — in particular a key-side
failure is independent of the value bytes — and an accepted tail byte is
followed by a skip of 3 more trailing bytes (4 tail bytes consumed in all). -/
theorem decode_rejected_iff_header_checks (ops : SchemaOps V)
    (d : RecordDecoderV1) (key value : List Nat) (record : List (Cell V)) :
    ((Decode d ops key value record).1 = -1 ↔
      ¬ (CommonIdOkP d key ∧ CodecTagOkP d key ∧ SchemaVersionOkP d value)) ∧
    ((Decode d ops key value record).1 = 0 ↔
      (CommonIdOkP d key ∧ CodecTagOkP d key ∧ SchemaVersionOkP d value)) ∧
    (¬ CommonIdOkP d key →
      ∀ value2 : List Nat, Decode d ops key value2 record = (-1, record)) ∧
    (CommonIdOkP d key → ¬ CodecTagOkP d key →
      ∀ value2 : List Nat, Decode d ops key value2 record = (-1, record)) ∧
    (CommonIdOkP d key → CodecTagOkP d key → ¬ SchemaVersionOkP d value →
      Decode d ops key value record = (-1, record)) ∧
    (∀ b : Buf, Buf.reversePeek b ≤ d.codec_version →
      CheckReverseTag d b = (true, { b with tail := b.tail + 1 + 3 })) := by
  refine ⟨?_, ?_, ?_, ?_, ?_, ?_⟩
  · rw [decode_status]
    by_cases h : CommonIdOkP d key ∧ CodecTagOkP d key ∧ SchemaVersionOkP d value <;>
      simp [h]
  · rw [decode_status]
    by_cases h : CommonIdOkP d key ∧ CodecTagOkP d key ∧ SchemaVersionOkP d value <;>
      simp [h]
  · intro h value2
    exact decode_fail1 ops d key value2 record h
  · intro h1 h2 value2
    exact decode_fail2 ops d key value2 record h1 h2
  · intro h1 h2 h3
    exact decode_fail3 ops d key value record h1 h2 h3
  · intro b hb
    simp [CheckReverseTag, Buf.reverseRead, Buf.reverseSkip, hb, Nat.add_assoc]

/-- Witness for C1 at the concrete decoder dW: a too-new schema version is
rejected with the record untouched, the good pair succeeds, and the accepted
tail consumes 4 tail bytes. -/
theorem decode_rejected_iff_header_checks_witness :
    Decode dW natOps keyW valBadW ([] : List (Cell Nat)) = (-1, []) ∧
    (Decode dW natOps keyW valW ([] : List (Cell Nat))).1 = 0 ∧
    CheckReverseTag dW (Buf.init keyW true) = (true, ⟨keyW, 0, 0 + 1 + 3, true⟩) :=
  ⟨(decode_rejected_iff_header_checks natOps dW keyW valBadW []).2.2.2.2.1
      (by decide) (by decide) (by decide),
   ((decode_rejected_iff_header_checks natOps dW keyW valW []).2.1).mpr
      ⟨by decide, by decide, by decide⟩,
   (decode_rejected_iff_header_checks natOps dW keyW valW []).2.2.2.2.2
      (Buf.init keyW true) (by decide)⟩

/-- C3: a value-portion column dispatched with skip=false whose value cursor is
already at end-of-data writes the explicit absent marker to the target output
slot — no failure, both cursors untouched. This is the path by which value
columns added only in a newer schema decode to the absent marker on bytes
written under an older version. -/
theorem value_column_at_end_decodes_absent (ops : SchemaOps V)
    (s : ColumnSchema) (key_buf value_buf : Buf) (record : List (Cell V))
    (record_index : Nat) (hk : s.is_key = false)
    (he : Buf.isEnd value_buf = true) :
    CastAndDecodeOrSkip ops s key_buf value_buf record record_index false =
      (record.set record_index Cell.absent, key_buf, value_buf) := by
  simp [CastAndDecodeOrSkip, hk, he]

/-- Witness for C3: the value column of dW against an empty value cursor. -/
theorem value_column_at_end_decodes_absent_witness :
    CastAndDecodeOrSkip natOps sW0 (Buf.init keyW true) (Buf.init [] true)
      [Cell.unset] 0 false =
      ([Cell.absent], Buf.init keyW true, Buf.init [] true) :=
  value_column_at_end_decodes_absent natOps sW0 (Buf.init keyW true)
    (Buf.init [] true) [Cell.unset] 0 (by decide) (by decide)

/-- C4: a key-portion column dispatched with skip=false always decodes from the
key cursor into the output slot, whatever the end-of-data state of any cursor;
the absent-marker path is never taken for a key column. -/
theorem key_column_never_absent (ops : SchemaOps V) (s : ColumnSchema)
    (key_buf value_buf : Buf) (record : List (Cell V)) (record_index : Nat)
    (hk : s.is_key = true) :
    CastAndDecodeOrSkip ops s key_buf value_buf record record_index false =
      (record.set record_index (Cell.value (ops.decodeKeyFn s key_buf).1),
       (ops.decodeKeyFn s key_buf).2, value_buf) ∧
    (record_index < record.length →
      (CastAndDecodeOrSkip ops s key_buf value_buf record record_index
        false).1[record_index]? ≠ some Cell.absent) := by
  have h1 : CastAndDecodeOrSkip ops s key_buf value_buf record record_index false =
      (record.set record_index (Cell.value (ops.decodeKeyFn s key_buf).1),
       (ops.decodeKeyFn s key_buf).2, value_buf) := by
    simp [CastAndDecodeOrSkip, hk]
  refine ⟨h1, fun hlt => ?_⟩
  rw [congrArg Prod.fst h1]
  rw [List.getElem?_set_self (by simpa using hlt)]
  simp

/-- Witness for C4: the key column of dW decodes even though the value cursor
is at end-of-data. -/
theorem key_column_never_absent_witness :
    CastAndDecodeOrSkip natOps sW1 (Buf.init keyW true) (Buf.init [] true)
      [Cell.unset] 0 false =
      ([Cell.value 0], ⟨keyW, 1, 0, true⟩, Buf.init [] true) ∧
    (CastAndDecodeOrSkip natOps sW1 (Buf.init keyW true) (Buf.init [] true)
      [Cell.unset] 0 false).1[0]? ≠ some Cell.absent :=
  ⟨(key_column_never_absent natOps sW1 (Buf.init keyW true) (Buf.init [] true)
      [Cell.unset] 0 (by decide)).1,
   (key_column_never_absent natOps sW1 (Buf.init keyW true) (Buf.init [] true)
      [Cell.unset] 0 (by decide)).2 (by decide)⟩

/-- C6: as soon as the number of satisfied requests equals the projection
length, the projected pass returns its whole state (record, both cursors,
counters) untouched whatever schema slots remain — no further dispatch, cursor
movement or output write — and the enclosing projected decode reports the
success status under valid headers. -/
theorem projected_decode_early_termination (ops : SchemaOps V) (k : Nat)
    (plan : List (Int × Nat)) (d : RecordDecoderV1) (key value : List Nat)
    (ci : List Int) (record : List (Cell V)) :
    (∀ (cs : List (Option ColumnSchema)) (st : PState V), st.n = k →
      projLoop ops k plan cs st = st) ∧
    (CommonIdOkP d key → CodecTagOkP d key → SchemaVersionOkP d value →
      (DecodeWithColumns d ops key value ci record).1 = 0) := by
  constructor
  · exact fun cs st h => projLoop_at_end ops k plan cs st h
  · intro h1 h2 h3
    rw [decodeCols_success ops d key value ci record h1 h2 h3]

/-- Witness for C6: a pass whose request counter equals the projection length
leaves a concrete state untouched over remaining slots, and the projected
decode of dW succeeds. -/
theorem projected_decode_early_termination_witness :
    projLoop natOps 1 [((0 : Int), (0 : Nat))] [some sW0, some sW1]
      ⟨[Cell.unset], Buf.init keyW true, Buf.init valW true, 1, 0, 0⟩ =
      ⟨[Cell.unset], Buf.init keyW true, Buf.init valW true, 1, 0, 0⟩ ∧
    (DecodeWithColumns dW natOps keyW valW [0] ([] : List (Cell Nat))).1 = 0 :=
  ⟨(projected_decode_early_termination natOps 1 [((0 : Int), (0 : Nat))] dW keyW
      valW [0] []).1 [some sW0, some sW1] _ rfl,
   (projected_decode_early_termination natOps 1 [((0 : Int), (0 : Nat))] dW keyW
      valW [0] []).2 (by decide) (by decide) (by decide)⟩

/-- C7: the present-slot position counter of the projected pass advances only
on present schema slots: a null slot changes nothing at all in the loop state
(neither counter, no dispatch), while every present slot (before the early
return) takes exactly one dispatched step whose position counter increment
is 1. -/
theorem projected_position_counter_present_only (ops : SchemaOps V) (k : Nat)
    (plan : List (Int × Nat)) (s : ColumnSchema)
    (rest : List (Option ColumnSchema)) (st : PState V) :
    projLoop ops k plan (none :: rest) st = projLoop ops k plan rest st ∧
    (projStep ops plan s st).m = st.m + 1 ∧
    (¬ k = st.n →
      projLoop ops k plan (some s :: rest) st =
        projLoop ops k plan rest (projStep ops plan s st)) :=
  ⟨projLoop_none ops k plan rest st, projStep_m ops plan s st,
   fun h => projLoop_cons_some ops k plan s rest st h⟩

/-- Witness for C7 on a concrete plan, slot and state. -/
theorem projected_position_counter_present_only_witness :
    projLoop natOps 1 [((0 : Int), (0 : Nat))] [none]
      ⟨[Cell.unset], Buf.init keyW true, Buf.init valW true, 0, 0, 0⟩ =
      projLoop natOps 1 [((0 : Int), (0 : Nat))] []
        ⟨[Cell.unset], Buf.init keyW true, Buf.init valW true, 0, 0, 0⟩ ∧
    (projStep natOps [((0 : Int), (0 : Nat))] sW1
      ⟨[Cell.unset], Buf.init keyW true, Buf.init valW true, 0, 0, 0⟩).m = 0 + 1 ∧
    projLoop natOps 1 [((0 : Int), (0 : Nat))] [some sW1]
      ⟨[Cell.unset], Buf.init keyW true, Buf.init valW true, 0, 0, 0⟩ =
      projLoop natOps 1 [((0 : Int), (0 : Nat))] []
        (projStep natOps [((0 : Int), (0 : Nat))] sW1
          ⟨[Cell.unset], Buf.init keyW true, Buf.init valW true, 0, 0, 0⟩) :=
  ⟨(projected_position_counter_present_only natOps 1 [((0 : Int), (0 : Nat))] sW1
      [] ⟨[Cell.unset], Buf.init keyW true, Buf.init valW true, 0, 0, 0⟩).1,
   (projected_position_counter_present_only natOps 1 [((0 : Int), (0 : Nat))] sW1
      [] ⟨[Cell.unset], Buf.init keyW true, Buf.init valW true, 0, 0, 0⟩).2.1,
   (projected_position_counter_present_only natOps 1 [((0 : Int), (0 : Nat))] sW1
      [] ⟨[Cell.unset], Buf.init keyW true, Buf.init valW true, 0, 0, 0⟩).2.2
      (by decide)⟩

/-- C9: whenever an applicable header check fails, each of the three decode
entry points returns -1 with the caller's record returned exactly as supplied —
no resize and no write happens before all applicable checks have passed. -/
theorem header_failure_leaves_record_untouched (ops : SchemaOps V)
    (d : RecordDecoderV1) (key value : List Nat) (ci : List Int)
    (record : List (Cell V)) :
    (¬ (CommonIdOkP d key ∧ CodecTagOkP d key ∧ SchemaVersionOkP d value) →
      Decode d ops key value record = (-1, record) ∧
      DecodeWithColumns d ops key value ci record = (-1, record)) ∧
    (¬ (CommonIdOkP d key ∧ CodecTagOkP d key) →
      DecodeKey d ops key record = (-1, record)) := by
  constructor
  · intro h
    by_cases h1 : CommonIdOkP d key
    · by_cases h2 : CodecTagOkP d key
      · have h3 : ¬ SchemaVersionOkP d value := fun h3 => h ⟨h1, h2, h3⟩
        exact ⟨decode_fail3 ops d key value record h1 h2 h3,
          decodeCols_fail3 ops d key value ci record h1 h2 h3⟩
      · exact ⟨decode_fail2 ops d key value record h1 h2,
          decodeCols_fail2 ops d key value ci record h1 h2⟩
    · exact ⟨decode_fail1 ops d key value record h1,
        decodeCols_fail1 ops d key value ci record h1⟩
  · intro h
    by_cases h1 : CommonIdOkP d key
    · have h2 : ¬ CodecTagOkP d key := fun h2 => h ⟨h1, h2⟩
      exact decodeKey_fail2 ops d key record h1 h2
    · exact decodeKey_fail1 ops d key record h1

/-- C5: key-only decode runs only the prefix and reverse-tag checks — its
status is independent of the decoder's schema version and needs no value
bytes — and on success resizes the output to the schema list length, decodes
exactly the present key slots in schema-list order, writing each at its
schema-list enumeration position (the declared output index plays no role
here), and leaves every other slot as the resize left it. -/
theorem key_only_decode_spec (ops : SchemaOps V) (d : RecordDecoderV1)
    (key : List Nat) (record : List (Cell V)) (sv : Nat) :
    ((DecodeKey d ops key record).1 = 0 ↔
      (CommonIdOkP d key ∧ CodecTagOkP d key)) ∧
    (DecodeKey { d with schema_version := sv } ops key record =
      DecodeKey d ops key record) ∧
    (CommonIdOkP d key → CodecTagOkP d key →
      (DecodeKey d ops key record).2.length = d.schemas.length ∧
      (∀ i s, i < d.schemas.length → d.schemas.getD i none = some s →
        s.is_key = true →
        (DecodeKey d ops key record).2[i]? =
          some (Cell.value (ops.decodeKeyFn s
            (keyCursorAfter ops (d.schemas.take i) ⟨key, 9, 4, d.le⟩)).1)) ∧
      (∀ i, i < d.schemas.length →
        (d.schemas.getD i none = none ∨
          ∃ s, d.schemas.getD i none = some s ∧ s.is_key = false) →
        (DecodeKey d ops key record).2[i]? =
          (resizeRecord record d.schemas.length)[i]?)) := by
  refine ⟨?_, ?_, ?_⟩
  · by_cases h1 : CommonIdOkP d key
    · by_cases h2 : CodecTagOkP d key
      · rw [decodeKey_success ops d key record h1 h2]
        simp [h1, h2]
      · rw [decodeKey_fail2 ops d key record h1 h2]
        simp [h1, h2]
    · rw [decodeKey_fail1 ops d key record h1]
      simp [h1]
  · rfl
  · intro h1 h2
    rw [decodeKey_success ops d key record h1 h2]
    refine ⟨?_, ?_, ?_⟩
    · rw [keyLoop_length]
      exact resizeRecord_length record d.schemas.length
    · intro i s hi hs hk
      have hg := keyLoop_getElem ops d.schemas 0
        (resizeRecord record d.schemas.length) ⟨key, 9, 4, d.le⟩ i hi
      rw [Nat.zero_add] at hg
      rw [hg, hs]
      simp only [hk, if_true]
      rw [if_pos (by rw [resizeRecord_length]; exact hi)]
    · intro i hi hcase
      have hg := keyLoop_getElem ops d.schemas 0
        (resizeRecord record d.schemas.length) ⟨key, 9, 4, d.le⟩ i hi
      rw [Nat.zero_add] at hg
      rw [hg]
      rcases hcase with hn | ⟨s, hs, hk⟩
      · rw [hn]
      · rw [hs]
        simp [hk]

/-- Witness for C5 on dW: schema-version independence, success status, the key
column written at enumeration position 1 with its decoded byte 7, and the
value-column slot left as resized. -/
theorem key_only_decode_spec_witness :
    DecodeKey { dW with schema_version := 5 } natOps keyW ([] : List (Cell Nat)) =
      DecodeKey dW natOps keyW ([] : List (Cell Nat)) ∧
    (DecodeKey dW natOps keyW ([] : List (Cell Nat))).1 = 0 ∧
    (DecodeKey dW natOps keyW ([] : List (Cell Nat))).2[1]? =
      some (Cell.value 7) ∧
    (DecodeKey dW natOps keyW ([] : List (Cell Nat))).2[0]? = some Cell.unset :=
  ⟨(key_only_decode_spec natOps dW keyW [] 5).2.1,
   ((key_only_decode_spec natOps dW keyW [] 5).1).mpr ⟨by decide, by decide⟩,
   ((key_only_decode_spec natOps dW keyW [] 5).2.2 (by decide) (by decide)).2.1
      1 sW1 (by decide) (by decide) (by decide),
   ((key_only_decode_spec natOps dW keyW [] 5).2.2 (by decide) (by decide)).2.2
      0 (by decide) (Or.inr ⟨sW0, by decide, by decide⟩)⟩

/-- C10: under valid headers, projected decode always reports success after
the pass (early return or exhausted schema list), sizes the output to the
projection length, and any output slot whose request is never matched by the
present-slot counter is left in its default never-written state. -/
theorem projected_unmatched_requests_left_unset (ops : SchemaOps V)
    (d : RecordDecoderV1) (key value : List Nat) (ci : List Int)
    (h1 : CommonIdOkP d key) (h2 : CodecTagOkP d key)
    (h3 : SchemaVersionOkP d value) :
    (DecodeWithColumns d ops key value ci ([] : List (Cell V))).1 = 0 ∧
    (DecodeWithColumns d ops key value ci ([] : List (Cell V))).2.length =
      ci.length ∧
    (∀ j, j < ci.length →
      j ∉ projMatched ci.length (mkPlan ci) d.schemas 0 0 →
      (DecodeWithColumns d ops key value ci ([] : List (Cell V))).2[j]? =
        some Cell.unset) := by
  rw [decodeCols_success ops d key value ci [] h1 h2 h3]
  refine ⟨rfl, ?_, ?_⟩
  · rw [projLoop_record_length]
    exact resizeRecord_length [] ci.length
  · intro j hj hjm
    have hp := projLoop_preserve ops ci.length (mkPlan ci) d.schemas
      ⟨resizeRecord [] ci.length, ⟨key, 9, 4, d.le⟩, ⟨value, 4, 0, d.le⟩, 0, 0, 0⟩
      j hjm
    rw [hp]
    exact resizeRecord_nil_getElem ci.length j hj

/-- Witness for C10 on dW: requesting position 5 (beyond the 2 present slots)
still succeeds and leaves output slot 0 unset. -/
theorem projected_unmatched_requests_left_unset_witness :
    (DecodeWithColumns dW natOps keyW valW [5] ([] : List (Cell Nat))).1 = 0 ∧
    (DecodeWithColumns dW natOps keyW valW [5]
      ([] : List (Cell Nat))).2[0]? = some Cell.unset :=
  ⟨(projected_unmatched_requests_left_unset natOps dW keyW valW [5]
      (by decide) (by decide) (by decide)).1,
   (projected_unmatched_requests_left_unset natOps dW keyW valW [5]
      (by decide) (by decide) (by decide)).2.2 0 (by decide) (by decide)⟩

/-- C2: refinement of full decode by projected decode. For an all-present
schema list with distinct in-range output indices, skip-consistent per-type
collaborators, valid headers, and a projection of distinct in-range schema-list
positions, projected decode succeeds, produces exactly one output per request,
and the cell at the caller's output slot i equals the cell full decode leaves
at the declared output index of the schema column requested at position i —
columns outside the projection appear in no output slot. -/
theorem projected_decode_refines_full (ops : SchemaOps V)
    (hops : SkipConsistent ops) (d : RecordDecoderV1) (cs : List ColumnSchema)
    (hschemas : d.schemas = cs.map some)
    (hpw : cs.Pairwise (fun a b => a.index ≠ b.index))
    (hidxlt : ∀ s ∈ cs, s.index < cs.length)
    (key value : List Nat) (ci : List Int)
    (hdist : ci.Pairwise (fun a b => a ≠ b))
    (hci : ∀ p ∈ ci, 0 ≤ p ∧ p.toNat < cs.length)
    (h1 : CommonIdOkP d key) (h2 : CodecTagOkP d key)
    (h3 : SchemaVersionOkP d value) (record record2 : List (Cell V)) :
    (DecodeWithColumns d ops key value ci record).1 = 0 ∧
    (DecodeWithColumns d ops key value ci record).2.length = ci.length ∧
    (∀ i, i < ci.length →
      (DecodeWithColumns d ops key value ci record).2[i]? =
        (Decode d ops key value record2).2[(cs.getD (ci.getD i 0).toNat
          default).index]?) := by
  rw [decodeCols_success ops d key value ci record h1 h2 h3]
  refine ⟨rfl, ?_, ?_⟩
  · rw [projLoop_record_length, resizeRecord_length]
  · intro i hi
    have hmem := mkPlan_mem ci i hi
    obtain ⟨j, hj, hjeq⟩ := List.mem_iff_getElem.mp hmem
    have hgd : (mkPlan ci).getD j ((0 : Int), (0 : Nat)) = (ci.getD i 0, i) := by
      rw [List.getD_eq_getElem?_getD, List.getElem?_eq_getElem hj]
      simp only [Option.getD_some]
      exact hjeq
    have hrange : ∀ j2,
        (0 : Nat) ≤ j2 → j2 < (mkPlan ci).length →
        (((0 : Nat) : Int) ≤ ((mkPlan ci).getD j2 ((0 : Int), (0 : Nat))).1 ∧
         ((mkPlan ci).getD j2 ((0 : Int), (0 : Nat))).1 <
          ((0 : Nat) : Int) + cs.length ∧
         ((mkPlan ci).getD j2 ((0 : Int), (0 : Nat))).2 <
          (resizeRecord record ci.length).length) := by
      intro j2 _ hj2
      have hent : (mkPlan ci).getD j2 ((0 : Int), (0 : Nat)) ∈ mkPlan ci := by
        rw [List.getD_eq_getElem?_getD, List.getElem?_eq_getElem hj2]
        simp only [Option.getD_some]
        exact List.getElem_mem hj2
      obtain ⟨hfst, hsnd2⟩ := mkPlan_entry ci _ hent
      obtain ⟨hge0, hlt⟩ := hci _ hfst
      refine ⟨by omega, by omega, ?_⟩
      rw [resizeRecord_length]
      exact hsnd2
    have hml := projLoop_matches ops hops ci.length (mkPlan ci)
      (mkPlan_fst_lt ci hdist) (mkPlan_snd_ne ci) (mkPlan_length ci).symm cs
      ⟨resizeRecord record ci.length, ⟨key, 9, 4, d.le⟩, ⟨value, 4, 0, d.le⟩,
        0, 0, 0⟩ hrange j (Nat.zero_le j) hj
    rw [hgd] at hml
    have hsub : ((ci.getD i 0) - (((0 : Nat)) : Int)).toNat =
        (ci.getD i 0).toNat := by omega
    rw [hsub] at hml
    have hptn : (ci.getD i 0).toNat < cs.length := by
      have hmemc : ci.getD i 0 ∈ ci := by
        rw [List.getD_eq_getElem?_getD, List.getElem?_eq_getElem hi]
        simp only [Option.getD_some]
        exact List.getElem_mem hi
      exact (hci _ hmemc).2
    have hfull := decode_full_at_index ops d key value record2 cs hschemas hpw
      hidxlt h1 h2 h3 (ci.getD i 0).toNat hptn
    rw [hschemas]
    exact hml.trans hfull.symm

/-- Witness for C2 on dW with the out-of-order projection [1, 0]: projected
decode succeeds, yields 2 outputs, and each output slot carries exactly the
cell full decode produces for the requested schema position. -/
theorem projected_decode_refines_full_witness :
    (DecodeWithColumns dW natOps keyW valW [1, 0] ([] : List (Cell Nat))).1 = 0 ∧
    (DecodeWithColumns dW natOps keyW valW [1, 0]
      ([] : List (Cell Nat))).2.length = 2 ∧
    (DecodeWithColumns dW natOps keyW valW [1, 0]
      ([] : List (Cell Nat))).2[0]? =
      (Decode dW natOps keyW valW ([] : List (Cell Nat))).2[1]? ∧
    (DecodeWithColumns dW natOps keyW valW [1, 0]
      ([] : List (Cell Nat))).2[1]? =
      (Decode dW natOps keyW valW ([] : List (Cell Nat))).2[0]? :=
  ⟨(projected_decode_refines_full natOps ⟨fun _ _ => rfl, fun _ _ => rfl⟩ dW
      [sW0, sW1] rfl (by decide) (by decide) keyW valW [1, 0] (by decide)
      (by decide) (by decide) (by decide) (by decide) [] []).1,
   (projected_decode_refines_full natOps ⟨fun _ _ => rfl, fun _ _ => rfl⟩ dW
      [sW0, sW1] rfl (by decide) (by decide) keyW valW [1, 0] (by decide)
      (by decide) (by decide) (by decide) (by decide) [] []).2.1,
   (projected_decode_refines_full natOps ⟨fun _ _ => rfl, fun _ _ => rfl⟩ dW
      [sW0, sW1] rfl (by decide) (by decide) keyW valW [1, 0] (by decide)
      (by decide) (by decide) (by decide) (by decide) [] []).2.2 0 (by decide),
   (projected_decode_refines_full natOps ⟨fun _ _ => rfl, fun _ _ => rfl⟩ dW
      [sW0, sW1] rfl (by decide) (by decide) keyW valW [1, 0] (by decide)
      (by decide) (by decide) (by decide) (by decide) [] []).2.2 1 (by decide)⟩

/-- C8: decode is a pure function of the decoder value and the two byte
strings — running full decode a second time, even feeding the first run's
output record back in as the caller's record, yields the identical status and
the bit-identical output record. In the embedding the decoder fields and input
byte strings are values that decode cannot mutate by construction. -/
theorem decode_idempotent (ops : SchemaOps V) (d : RecordDecoderV1)
    (key value : List Nat) (record : List (Cell V)) :
    Decode d ops key value (Decode d ops key value record).2 =
      Decode d ops key value record := by
  by_cases h1 : CommonIdOkP d key
  · by_cases h2 : CodecTagOkP d key
    · by_cases h3 : SchemaVersionOkP d value
      · have hL := decode_success ops d key value record h1 h2 h3
        have hsnd : (Decode d ops key value record).2 =
            (fullLoop ops d.schemas (resizeRecord record d.schemas.length)
              ⟨key, 9, 4, d.le⟩ ⟨value, 4, 0, d.le⟩).1 := by rw [hL]
        have hlen : ((fullLoop ops d.schemas
            (resizeRecord record d.schemas.length)
            ⟨key, 9, 4, d.le⟩ ⟨value, 4, 0, d.le⟩).1).length =
            d.schemas.length := by
          rw [fullLoop_record, applyWrites_length, resizeRecord_length]
        rw [hsnd, hL]
        rw [decode_success ops d key value _ h1 h2 h3]
        rw [resizeRecord_self _ _ hlen]
        rw [fullLoop_record, fullLoop_record, applyWrites_idem]
      · rw [decode_fail3 ops d key value record h1 h2 h3]
        exact decode_fail3 ops d key value record h1 h2 h3
    · rw [decode_fail2 ops d key value record h1 h2]
      exact decode_fail2 ops d key value record h1 h2
  · rw [decode_fail1 ops d key value record h1]
    exact decode_fail1 ops d key value record h1

/-- Witness for C9: a wrong table id leaves a concrete record untouched in all
three entry points. -/
theorem header_failure_leaves_record_untouched_witness :
    Decode dW natOps keyBadW valW [Cell.value 3] = (-1, [Cell.value 3]) ∧
    DecodeWithColumns dW natOps keyBadW valW [0] [Cell.value 3] =
      (-1, [Cell.value 3]) ∧
    DecodeKey dW natOps keyBadW [Cell.value 3] = (-1, [Cell.value 3]) :=
  ⟨((header_failure_leaves_record_untouched natOps dW keyBadW valW [0]
      [Cell.value 3]).1 (by decide)).1,
   ((header_failure_leaves_record_untouched natOps dW keyBadW valW [0]
      [Cell.value 3]).1 (by decide)).2,
   (header_failure_leaves_record_untouched natOps dW keyBadW valW [0]
      [Cell.value 3]).2 (by decide)⟩

end DingoSerial
